import Mathlib

/-!
Verification of the tos-analyzer core against its natural-language
specification.  The TypeScript sources are shallowly embedded: strings are
`List Char`, machine integers are `Nat` with explicit `% 2 ^ 32` where
overflow matters, fallible backend calls return `Except`, and each handler
is a pure function threading the durable store explicitly.
-/

set_option maxRecDepth 10000

namespace TosAnalyzer

/-! ### Text utilities (src/lib/utils.ts)

JavaScript's `\s` character class is modelled by the ASCII whitespace
characters; `toLowerCase` is modelled by the ASCII `Char.toLower` (all
inputs appearing in the spec and tests are ASCII). -/

/-- Whitespace test corresponding to the regex class `\s` (ASCII part). -/
def isWsChar (c : Char) : Bool :=
  c == ' ' || c == '\t' || c == '\n' || c == '\r' || c == '\x0b' || c == '\x0c'

/-- Word-character test corresponding to the regex class `\w`. -/
def isWordChar (c : Char) : Bool :=
  (97 ≤ c.toNat && c.toNat ≤ 122) || (65 ≤ c.toNat && c.toNat ≤ 90) ||
  (48 ≤ c.toNat && c.toNat ≤ 57) || c == '_'

/-- Characters kept by `normalizeText`'s strip step: the whitelist
`[\w\s.,!?;:()\-]` of `src/lib/utils.ts` line 31. -/
def keptChar (c : Char) : Bool :=
  isWordChar c || isWsChar c || c == '.' || c == ',' || c == '!' || c == '?' ||
  c == ';' || c == ':' || c == '(' || c == ')' || c == '-'

/-- Drop leading whitespace (left half of JS `String.prototype.trim`). -/
def trimLeft (l : List Char) : List Char := l.dropWhile isWsChar

/-- Drop trailing whitespace (right half of JS `String.prototype.trim`). -/
def trimRight : List Char → List Char
  | [] => []
  | c :: cs =>
    match trimRight cs with
    | [] => if isWsChar c then [] else [c]
    | r => c :: r

/-- JS `String.prototype.trim`: drop whitespace at both ends. -/
def trimList (l : List Char) : List Char := trimRight (trimLeft l)

/-- Model of `replace(/\s+/g, ' ')`: collapse every maximal whitespace run
to a single space.  Structured as a one-character-lookahead recursion so it
reduces in the kernel; `collapseWs_cons_ws` below recovers the run-skipping
recursion. -/
def collapseWs : List Char → List Char
  | [] => []
  | [c] => if isWsChar c then [' '] else [c]
  | c :: d :: cs =>
    if isWsChar c && isWsChar d then collapseWs (d :: cs)
    else (if isWsChar c then ' ' else c) :: collapseWs (d :: cs)

/-- Model of `replace(/[^\w\s.,!?;:()\-]/g, '')`: remove characters
outside the whitelist. -/
def stripChars (l : List Char) : List Char := l.filter keptChar

/-- Function `normalizeText` from src/lib/utils.ts lines 26-33:
lowercase, trim, collapse whitespace runs, strip non-whitelist characters,
trim again. -/
def normalizeText (l : List Char) : List Char :=
  trimList (stripChars (collapseWs (trimList (l.map Char.toLower))))

/-- Maximal whitespace-separated segments of a character list (the
non-empty pieces produced by splitting on `/\s+/`).  Structured as a
one-character-lookahead recursion so it reduces in the kernel;
`wordsWs_cons_not_ws` below recovers the take/drop form. -/
def wordsWs : List Char → List (List Char)
  | [] => []
  | [c] => if isWsChar c then [] else [[c]]
  | c :: d :: cs =>
    if isWsChar c then wordsWs (d :: cs)
    else
      match wordsWs (d :: cs) with
      | [] => [[c]]
      | w :: rest => if isWsChar d then [c] :: w :: rest else (c :: w) :: rest

/-- Join word segments with single spaces (inverse direction of
`wordsWs`). -/
def joinWords : List (List Char) → List Char
  | [] => []
  | [w] => w
  | w :: v :: ws => w ++ ' ' :: joinWords (v :: ws)

/-- Function `countWords` from src/lib/utils.ts lines 60-62:
`text.trim().split(/\s+/).filter(Boolean).length`.  Filtering out empty
pieces makes the result exactly the number of maximal non-whitespace
segments. -/
def countWords (l : List Char) : Nat := (wordsWs (trimList l)).length

/-- Function `countChars` from src/lib/utils.ts lines 67-69:
`text.replace(/\s/g, '').length`. -/
def countChars (l : List Char) : Nat := (l.filter (fun c => !isWsChar c)).length

/-- Word count as computed at the engine entry
(`tosText.trim().split(/\s+/).length`, src/lib/services/gemini-analyzer.ts
line 298).  No `filter(Boolean)` here: in JS, `''.split(/\s+/)` is `['']`,
so a whitespace-only document counts as one word. -/
def wordCountJS (l : List Char) : Nat :=
  let t := trimList l
  if t.isEmpty then 1 else (wordsWs t).length

/-- Function `validateTOSText` from src/lib/utils.ts lines 75-100.  Returns
`some errorMessage` when the text is rejected, `none` when accepted. -/
def validateTOSText (l : List Char) : Option String :=
  let trimmed := trimList l
  if trimmed.length < 50 then some "Text is too short (minimum 50 characters)"
  else if trimmed.length > 500000 then some "Text is too long (maximum 500,000 characters)"
  else
    let wc := countWords trimmed
    if wc < 10 then some "Text is too short (minimum 10 words)"
    else if wc > 50000 then some "Text is too long (maximum 50,000 words)"
    else none

/-- Function `calculateBackoff` from src/lib/utils.ts lines 238-240:
`Math.min(baseDelay * Math.pow(2, attempt), 10000)`. -/
def calculateBackoff (attempt : Nat) (baseDelay : Nat) : Nat :=
  min (baseDelay * 2 ^ attempt) 10000

/-- Function `calculatePopularityScore` from src/lib/utils.ts lines 247-249. -/
def calculatePopularityScore (viewCount shareCount : Nat) : Nat :=
  viewCount + shareCount * 2

/-! ### SHA-256 (the digest behind `hashContent`)

`hashContent` uses Node's `crypto.createHash('sha256')`.  The full FIPS
180-4 SHA-256 is embedded here over byte lists so that the digest is
executable in Lean.  Words are `Nat`s reduced mod `2 ^ 32`. -/

/-- UTF-8 encoding of a character list (Node hashes the UTF-8 bytes of the
normalized string). -/
def utf8Encode (l : List Char) : List Nat :=
  l.flatMap fun c =>
    let n := c.toNat
    if n < 128 then [n]
    else if n < 2048 then [192 + n / 64, 128 + n % 64]
    else if n < 65536 then [224 + n / 4096, 128 + n / 64 % 64, 128 + n % 64]
    else [240 + n / 262144, 128 + n / 4096 % 64, 128 + n / 64 % 64, 128 + n % 64]

/-- The SHA-256 word modulus 2^32. -/
def w32 : Nat := 4294967296

/-- Right rotation of a 32-bit word. -/
def rotr32 (n x : Nat) : Nat := (x >>> n ||| x <<< (32 - n)) % w32

/-- SHA-256 small sigma 0. -/
def ssig0 (x : Nat) : Nat := rotr32 7 x ^^^ rotr32 18 x ^^^ x >>> 3

/-- SHA-256 small sigma 1. -/
def ssig1 (x : Nat) : Nat := rotr32 17 x ^^^ rotr32 19 x ^^^ x >>> 10

/-- SHA-256 big sigma 0. -/
def bsig0 (x : Nat) : Nat := rotr32 2 x ^^^ rotr32 13 x ^^^ rotr32 22 x

/-- SHA-256 big sigma 1. -/
def bsig1 (x : Nat) : Nat := rotr32 6 x ^^^ rotr32 11 x ^^^ rotr32 25 x

/-- SHA-256 round constants. -/
def sha256K : List Nat :=
  [1116352408, 1899447441, 3049323471, 3921009573, 961987163, 1508970993,
   2453635748, 2870763221, 3624381080, 310598401, 607225278, 1426881987,
   1925078388, 2162078206, 2614888103, 3248222580, 3835390401, 4022224774,
   264347078, 604807628, 770255983, 1249150122, 1555081692, 1996064986,
   2554220882, 2821834349, 2952996808, 3210313671, 3336571891, 3584528711,
   113926993, 338241895, 666307205, 773529912, 1294757372, 1396182291,
   1695183700, 1986661051, 2177026350, 2456956037, 2730485921, 2820302411,
   3259730800, 3345764771, 3516065817, 3600352804, 4094571909, 275423344,
   430227734, 506948616, 659060556, 883997877, 958139571, 1322822218,
   1537002063, 1747873779, 1955562222, 2024104815, 2227730452, 2361852424,
   2428436474, 2756734187, 3204031479, 3329325298]

/-- SHA-256 initial hash value (decimal). -/
def sha256H0 : List Nat :=
  [1779033703, 3144134277, 1013904242, 2773480762,
   1359893119, 2600822924, 528734635, 1541459225]

/-- Big-endian byte encoding of `n` on `k` bytes. -/
def beBytes (k n : Nat) : List Nat :=
  (List.range k).map fun i => n >>> (8 * (k - 1 - i)) % 256

/-- FIPS 180-4 message padding: append `0x80`, zero bytes, and the 64-bit
big-endian bit length so the total is a multiple of 64 bytes. -/
def sha256Pad (msg : List Nat) : List Nat :=
  let len := msg.length
  let zeros := (64 - (len + 9) % 64) % 64
  msg ++ 128 :: List.replicate zeros 0 ++ beBytes 8 (len * 8)

/-- Split into 64-byte blocks (fuel-structured so it reduces in the
kernel; the fuel `l.length` always suffices). -/
def toBlocksF : Nat → List Nat → List (List Nat)
  | _, [] => []
  | 0, _ => []
  | fuel + 1, b :: l => (b :: l).take 64 :: toBlocksF fuel ((b :: l).drop 64)

/-- Split into 64-byte blocks. -/
def toBlocks (l : List Nat) : List (List Nat) := toBlocksF l.length l

/-- Pack 4 big-endian bytes per word (fuel-structured so it reduces in
the kernel). -/
def bytesToWordsF : Nat → List Nat → List Nat
  | _, [] => []
  | 0, _ => []
  | fuel + 1, b :: l =>
    (((b :: l).take 4).foldl (fun a x => a * 256 + x) 0) ::
    bytesToWordsF fuel ((b :: l).drop 4)

/-- Pack 4 big-endian bytes per word. -/
def bytesToWords (l : List Nat) : List Nat := bytesToWordsF l.length l

/-- Message schedule: extend the 16 block words to 64. -/
def sha256Schedule (w : List Nat) : Nat → List Nat
  | 0 => w
  | n + 1 =>
    let v := sha256Schedule w n
    let g := fun i => v.getD (v.length - i) 0
    v ++ [(ssig1 (g 2) + g 7 + ssig0 (g 15) + g 16) % w32]

/-- One SHA-256 compression round.  State is the 8-word working list
`[a, b, c, d, e, f, g, h]`. -/
def sha256Round (ws : List Nat) (st : List Nat) (i : Nat) : List Nat :=
  let a := st.getD 0 0
  let b := st.getD 1 0
  let c := st.getD 2 0
  let d := st.getD 3 0
  let e := st.getD 4 0
  let f := st.getD 5 0
  let g := st.getD 6 0
  let h := st.getD 7 0
  let t1 := (h + bsig1 e + (e &&& f ^^^ (w32 - 1 - e) &&& g) +
             sha256K.getD i 0 + ws.getD i 0) % w32
  let t2 := (bsig0 a + (a &&& b ^^^ a &&& c ^^^ b &&& c)) % w32
  [(t1 + t2) % w32, a, b, c, (d + t1) % w32, e, f, g]

/-- Process one 64-byte block. -/
def sha256Block (h : List Nat) (block : List Nat) : List Nat :=
  let ws := sha256Schedule (bytesToWords block) 48
  let fin := (List.range 64).foldl (sha256Round ws) h
  (h.zip fin).map fun p => (p.1 + p.2) % w32

/-- SHA-256 digest of a byte list, as 32 bytes. -/
def sha256Bytes (msg : List Nat) : List Nat :=
  ((toBlocks (sha256Pad msg)).foldl sha256Block sha256H0).flatMap (beBytes 4)

/-- Lowercase hex digit. -/
def hexDigit (n : Nat) : Char :=
  if n < 10 then Char.ofNat (48 + n) else Char.ofNat (87 + n)

/-- Lowercase hex rendering of a byte list. -/
def toHex (l : List Nat) : List Char :=
  l.flatMap fun b => [hexDigit (b / 16 % 16), hexDigit (b % 16)]

/-- Function `hashContent` from src/lib/utils.ts lines 39-42: the lowercase-hex
SHA-256 digest of the UTF-8 bytes of the normalized text. -/
def hashContent (l : List Char) : List Char :=
  toHex (sha256Bytes (utf8Encode (normalizeText l)))

/-! ### Budget & rate guard (src/lib/redis.ts)

The ioredis client is modelled as a record of operations, each returning
`Except Unit _`: `.error ()` models a thrown/rejected Redis call.  The
guard functions wrap every backend interaction in the same try/catch
structure as the source. -/

/-- The Redis operations used by the guard functions.  `evalIncrExpire` is
the atomic INCR-then-EXPIRE Lua script of `atomicRateLimit`. -/
structure RedisBackend where
  evalIncrExpire : String → Nat → Except Unit Nat
  incrby : String → Nat → Except Unit Nat
  incrOp : String → Except Unit Nat
  expireOp : String → Nat → Except Unit Unit
  getOp : String → Except Unit (Option String)

/-- Function `atomicRateLimit` from src/lib/redis.ts lines 111-121. -/
def atomicRateLimit (b : RedisBackend) (key : String) (windowSeconds : Nat) :
    Except Unit Nat :=
  b.evalIncrExpire key windowSeconds

/-- Function `checkRateLimit` from src/lib/redis.ts lines 128-137 (default limit 10,
window `CACHE_TTL.RATE_LIMIT = 60`).  Returns `true` when the limit is
exceeded; on a thrown Redis call it returns `true` (fail closed). -/
def checkRateLimit (b : RedisBackend) (ip : String) (limit : Nat) : Bool :=
  match atomicRateLimit b ("ratelimit:ip:" ++ ip) 60 with
  | .ok count => count > limit
  | .error _ => true

/-- Function `checkReadRateLimit` from src/lib/redis.ts lines 143-152 (default limit
30). -/
def checkReadRateLimit (b : RedisBackend) (ip : String) (limit : Nat) : Bool :=
  match atomicRateLimit b ("ratelimit:read:ip:" ++ ip) 60 with
  | .ok count => count > limit
  | .error _ => true

/-- Result record of `checkDailyBudget`. -/
structure BudgetStatus where
  exceeded : Bool
  used : Nat
  limit : Nat
deriving DecidableEq, Repr

/-- Function `checkDailyBudget` from src/lib/redis.ts lines 159-183.
`dailyTokenBudget` models `parseInt(process.env.DAILY_TOKEN_BUDGET ||
'5000000')` and `today` the UTC date string.  On any thrown Redis call the
catch block reports `exceeded := true` (fail closed). -/
def checkDailyBudget (b : RedisBackend) (dailyTokenBudget : Nat) (today : String)
    (tokensToAdd : Nat) : BudgetStatus :=
  let limit := dailyTokenBudget
  let tokenKey := "budget:daily_tokens:" ++ today
  let requestKey := "budget:daily_requests:" ++ today
  let attempt : Except Unit Nat :=
    if tokensToAdd > 0 then do
      let used ← b.incrby tokenKey tokensToAdd
      let _ ← b.incrOp requestKey
      let _ ← b.expireOp tokenKey (48 * 60 * 60)
      let _ ← b.expireOp requestKey (48 * 60 * 60)
      pure used
    else do
      let current ← b.getOp tokenKey
      pure (match current with
            | some s => s.toNat?.getD 0
            | none => 0)
  match attempt with
  | .ok used => ⟨used > limit, used, limit⟩
  | .error _ => ⟨true, 0, limit⟩

/-- A backend on which every Redis call throws (counting backend
unreachable). -/
def RedisDown (b : RedisBackend) : Prop :=
  (∀ k w, b.evalIncrExpire k w = .error ()) ∧
  (∀ k n, b.incrby k n = .error ()) ∧
  (∀ k, b.incrOp k = .error ()) ∧
  (∀ k n, b.expireOp k n = .error ()) ∧
  (∀ k, b.getOp k = .error ())

/-- A concrete always-throwing backend. -/
def downBackend : RedisBackend :=
  ⟨fun _ _ => .error (), fun _ _ => .error (), fun _ => .error (),
   fun _ _ => .error (), fun _ => .error ()⟩

/-- A concrete healthy backend: counters stuck at 1, no stored value. -/
def okBackend : RedisBackend :=
  ⟨fun _ _ => .ok 1, fun _ n => .ok n, fun _ => .ok 1,
   fun _ _ => .ok (), fun _ => .ok none⟩

/-! ### LLM engine state machine (src/lib/services/gemini-analyzer.ts)

The model call itself is external; a run of `analyzeSinglePass` is
determined by the outcome of each attempt, modelled as a function from the
attempt index to an outcome.  The run records the terminal result, the
number of model calls made, and the list of backoff sleeps performed. -/

/-- Outcome of one `model.generateContent` attempt, as classified by the
body of `analyzeSinglePass`:
success, a transient failure (thrown network error, empty response text,
no JSON substring, or unparseable JSON), or output that parses as JSON but
fails the Zod schema (`z.ZodError`). -/
inductive CallOutcome where
  | success
  | transient
  | schemaInvalid
deriving DecidableEq, Repr

/-- Terminal state of a single-pass run. -/
inductive SPOutcome where
  | ok
  | fatalSchema
  | terminal
deriving DecidableEq, Repr

/-- Observable trace of a single-pass run. -/
structure SPRun where
  outcome : SPOutcome
  calls : Nat
  delays : List Nat
deriving DecidableEq, Repr

/-- Field `this.maxRetries` of `ClaudeAnalyzer` (line 249): 3 attempts total. -/
def maxRetries : Nat := 3

/-- Field `this.retryDelay` of `ClaudeAnalyzer` (line 250): base delay 1000 ms. -/
def retryDelay : Nat := 1000

/-- The retry loop of `analyzeSinglePass` (lines 312-374), unrolled from
`attempt`, with `fuel = maxRetries - attempt` remaining loop iterations.
On `schemaInvalid` the `z.ZodError` branch rethrows immediately (no sleep,
no further call); on `transient` it sleeps `calculateBackoff attempt
retryDelay` unless this was the last attempt; when the loop ends a
terminal error is thrown. -/
def singlePassFrom (behavior : Nat → CallOutcome) : Nat → Nat → SPRun
  | 0, _ => ⟨.terminal, 0, []⟩
  | fuel + 1, attempt =>
    match behavior attempt with
    | .success => ⟨.ok, 1, []⟩
    | .schemaInvalid => ⟨.fatalSchema, 1, []⟩
    | .transient =>
      let rest := singlePassFrom behavior fuel (attempt + 1)
      ⟨rest.outcome, rest.calls + 1,
       if attempt < maxRetries - 1 then
         calculateBackoff attempt retryDelay :: rest.delays
       else rest.delays⟩

/-- A full `analyzeSinglePass` run. -/
def analyzeSinglePassRun (behavior : Nat → CallOutcome) : SPRun :=
  singlePassFrom behavior maxRetries 0

/-- Every model call fails transiently. -/
def allTransient : Nat → CallOutcome := fun _ => .transient

/-- The first model call returns schema-invalid output. -/
def schemaInvalidFirst : Nat → CallOutcome := fun _ => .schemaInvalid

/-- The two analysis paths of the engine. -/
inductive EnginePath where
  | singlePass
  | chunked
deriving DecidableEq, Repr

/-- The entry decision of `analyzeWithClaude` (lines 294-307): word count
`tosText.trim().split(/\s+/).length`; if it exceeds 45000 the document is
chunked, otherwise analyzed in a single pass. -/
def analyzeWithClaudeRoute (tosText : List Char) : EnginePath :=
  if wordCountJS tosText > 45000 then .chunked else .singlePass

/-! ### Structured analysis payload (the engine's validated output)

Closed enumerations follow the Zod schema `AnalysisResultSchema`
(src/lib/services/gemini-analyzer.ts lines 31-66). -/

/-- The `confidence` enum of `detected_company`. -/
inductive CompanyConfidence where
  | high
  | medium
  | low
deriving DecidableEq, Repr

/-- The `document_type` enum of `document_validation`. -/
inductive DocumentType where
  | tos
  | privacy_policy
  | eula
  | service_agreement
  | cookie_policy
  | unknown
  | not_legal
deriving DecidableEq, Repr

/-- The `overall_risk` enum of `summary`. -/
inductive OverallRisk where
  | low
  | medium
  | high
deriving DecidableEq, Repr

/-- The `severity` enum of a clause. -/
inductive ClauseSeverity where
  | safe
  | concerning
  | critical
deriving DecidableEq, Repr

/-- Closed category-name enum. -/
inductive CategoryName where
  | privacyCat
  | liability
  | rights
  | changes
  | termination
  | payment
  | aiAndDataUse
deriving DecidableEq, Repr

/-- The `detected_company` object. -/
structure DetectedCompany where
  name : String
  confidence : CompanyConfidence
  source : String
deriving DecidableEq, Repr

/-- The `document_validation` object. -/
structure DocumentValidation where
  is_legal_document : Bool
  document_type : DocumentType
  confidence : Nat
  rejection_reason : Option String
deriving DecidableEq, Repr

/-- One analyzed clause. -/
structure ClauseInfo where
  severity : ClauseSeverity
  original_text : String
  explanation : String
  why_this_matters : String
  quote_reference : String
deriving DecidableEq, Repr

/-- One category with its clauses. -/
structure CategoryResult where
  name : CategoryName
  clauses : List ClauseInfo
deriving DecidableEq, Repr

/-- The `summary` object. -/
structure AnalysisSummary where
  overall_risk : OverallRisk
  total_clauses : Nat
  green_count : Nat
  yellow_count : Nat
  red_count : Nat
  key_takeaways : List String
deriving DecidableEq, Repr

/-- The validated analysis payload (the optional `metadata` object is not
modelled; no claim depends on it). -/
structure AnalysisResult where
  detected_company : DetectedCompany
  document_validation : DocumentValidation
  summary : AnalysisSummary
  categories : List CategoryResult
deriving DecidableEq, Repr

/-! ### Durable store and the analyze endpoint (src/unnamed/part_001)

Prisma is modelled as an explicit in-memory store threaded through the
handler.  External inputs that the handler reads (clock, random token,
generated ids, the engine outcome, whether the analytics write throws) are
collected in a context record. -/

/-- One row of the `analyses` table. -/
structure AnalysisRecord where
  id : String
  contentHash : List Char
  sourceType : String
  sourceUrl : Option String
  analysisData : AnalysisResult
  wordCount : Nat
  charCount : Nat
  createdAt : Nat
  expiresAt : Nat
  companyName : Option String
  isPublic : Bool
  popularityScore : Nat
  creatorTokenHash : String
deriving DecidableEq, Repr

/-- One row of the `shares` table. -/
structure ShareRecord where
  id : String
  analysisId : String
  sessionHash : String
  createdAt : Nat
  expiresAt : Nat
  viewCount : Nat
deriving DecidableEq, Repr

/-- One row of the `analytics_events` table (the JSON metadata column is
not modelled; no claim depends on its contents). -/
structure AnalyticsEvent where
  analysisId : Option String
  eventType : String
  sessionHash : String
deriving DecidableEq, Repr

/-- The durable store. -/
structure Db where
  analyses : List AnalysisRecord
  shares : List ShareRecord
  events : List AnalyticsEvent
deriving DecidableEq, Repr

/-- The parsed analyze request body (`AnalyzeRequestSchema`).  `skip_cache`
is omitted: the handler forces it to `false` (line 77). -/
structure AnalyzeRequest where
  text : List Char
  source_type : String
  source_url : Option String
  company_name : Option String
  add_to_library : Bool

/-- The Zod shape checks of `AnalyzeRequestSchema` (line 35-42): text
length 50..500000, company name at most 200 characters.  URL-format
validation of `source_url` is not modelled (external URL parser). -/
def analyzeRequestSchemaOk (req : AnalyzeRequest) : Bool :=
  50 ≤ req.text.length && req.text.length ≤ 500000 &&
  (match req.company_name with
   | some s => s.length ≤ 200
   | none => true)

/-- Function `calculateExpiryDate` from src/lib/utils.ts lines 141-145, in
milliseconds from the current instant: 30 days ahead. -/
def calculateExpiryDate (now : Nat) (days : Nat) : Nat :=
  now + days * 86400000

/-- The JS truthiness chain `a || b || c` over strings (empty string is
falsy), used for the stored company name. -/
def firstTruthy (a : Option String) (b : String) (c : String) : String :=
  match a with
  | some s => if s ≠ "" then s else if b ≠ "" then b else c
  | none => if b ≠ "" then b else c

/-- External inputs of one POST /api/analyze request. -/
structure AnalyzeCtx where
  backend : RedisBackend
  clientIP : String
  rateLimit : Nat
  dailyTokenBudget : Nat
  today : String
  now : Nat
  sessionHash : String
  creatorToken : String
  salt : String
  hmacSha256 : String → String → String
  sanitizeCompany : String → String
  newId : String
  engineOutcome : Except Unit (AnalysisResult × Bool × Option Nat)
  analyticsCreateFails : Bool
  errorEventFails : Bool

/-- Success payload of the analyze endpoint (fields not needed by any
claim, such as `library_url`, are omitted). -/
structure AnalyzeSuccess where
  id : String
  analysis : AnalysisResult
  cached : Bool
  creator_token : Option String
  created_at : Nat
  expires_at : Nat
  is_public : Bool
  company_name : Option String
deriving DecidableEq, Repr

/-- Responses of the analyze endpoint, tagged by their error code. -/
inductive AnalyzeResponse where
  | rateLimited
  | validationError
  | budgetExceeded
  | invalidText (message : String)
  | invalidDocumentType (detected_type : DocumentType) (confidence : Nat)
  | analysisError
  | success (data : AnalyzeSuccess)
deriving DecidableEq, Repr

/-- The catch block of the handler (lines 256-286): it records an
`error_occurred` analytics event inside its own try/catch (so a failure of
that write is swallowed) and returns the ANALYSIS_ERROR response. -/
def recordErrorEvent (ctx : AnalyzeCtx) (db : Db) : Db :=
  if ctx.errorEventFails then db
  else { db with events := db.events ++ [⟨none, "error_occurred", ctx.sessionHash⟩] }

/-- Persist-then-track tail of the handler (lines 214-254): the
`analysis_created` analytics write is awaited inside the main try block,
so a thrown analytics write lands in the catch block; on success the
response carries the raw creator token. -/
def finishPersist (ctx : AnalyzeCtx) (db : Db) (r : AnalysisRecord) (cached : Bool) :
    AnalyzeResponse × Db :=
  if ctx.analyticsCreateFails then (.analysisError, recordErrorEvent ctx db)
  else
    (.success ⟨r.id, r.analysisData, cached, some ctx.creatorToken, r.createdAt,
               r.expiresAt, r.isPublic, r.companyName⟩,
     { db with events := db.events ++ [⟨some r.id, "analysis_created", ctx.sessionHash⟩] })

/-- Engine-and-persist tail of the handler (lines 154-254), entered when
no fresh record was returned from the store. -/
def postAnalyzeEngine (ctx : AnalyzeCtx) (req : AnalyzeRequest) (db : Db)
    (contentHash : List Char) (wordCount charCount : Nat)
    (creatorTokenHash : String) (existing : Option AnalysisRecord) :
    AnalyzeResponse × Db :=
  match ctx.engineOutcome with
  | .error _ => (.analysisError, recordErrorEvent ctx db)
  | .ok (result, cached, _tokensUsed) =>
    -- `checkDailyBudget tokensUsed` (lines 159-161) only touches Redis and
    -- never throws; it has no durable-store effect.
    if !result.document_validation.is_legal_document then
      (.invalidDocumentType result.document_validation.document_type
         result.document_validation.confidence, db)
    else
      let expiresAt := calculateExpiryDate ctx.now 30
      let safeName := ctx.sanitizeCompany
        (firstTruthy req.company_name result.detected_company.name "Unknown Company")
      match existing with
      | some e =>
        let updated := { e with
          analysisData := result, expiresAt := expiresAt, wordCount := wordCount,
          charCount := charCount, companyName := some safeName,
          isPublic := req.add_to_library }
        let db1 := { db with
          analyses := db.analyses.map fun r => if r.id == e.id then updated else r }
        finishPersist ctx db1 updated cached
      | none =>
        let created : AnalysisRecord :=
          ⟨ctx.newId, contentHash, req.source_type, req.source_url, result,
           wordCount, charCount, ctx.now, expiresAt, some safeName,
           req.add_to_library, 0, creatorTokenHash⟩
        let db1 := { db with analyses := db.analyses ++ [created] }
        finishPersist ctx db1 created cached

/-- POST /api/analyze (src/unnamed/part_001 lines 44-287).  `sanitizeCompany`
and `hmacSha256` are context parameters: `sanitizeCompanyName` is imported
from a utils version not present in the snapshot and `createHmac` is a
crypto primitive; no claim depends on their definitions. -/
def postAnalyze (ctx : AnalyzeCtx) (req : AnalyzeRequest) (db : Db) :
    AnalyzeResponse × Db :=
  if checkRateLimit ctx.backend ctx.clientIP ctx.rateLimit then (.rateLimited, db)
  else if !analyzeRequestSchemaOk req then (.validationError, db)
  else if (checkDailyBudget ctx.backend ctx.dailyTokenBudget ctx.today 0).exceeded then
    (.budgetExceeded, db)
  else
    match validateTOSText req.text with
    | some msg => (.invalidText msg, db)
    | none =>
      let contentHash := hashContent req.text
      let wordCount := countWords req.text
      let charCount := countChars req.text
      let creatorTokenHash := ctx.hmacSha256 ctx.salt ctx.creatorToken
      match db.analyses.find? (fun r => r.contentHash == contentHash) with
      | some e =>
        if ctx.now < e.expiresAt then
          -- fresh record: return it as cached (lines 115-152); the
          -- `analysis_viewed` analytics write is awaited inside the try
          if ctx.analyticsCreateFails then (.analysisError, recordErrorEvent ctx db)
          else
            (.success ⟨e.id, e.analysisData, true, none, e.createdAt, e.expiresAt,
                       e.isPublic, e.companyName⟩,
             { db with events := db.events ++ [⟨some e.id, "analysis_viewed", ctx.sessionHash⟩] })
        else
          postAnalyzeEngine ctx req db contentHash wordCount charCount
            creatorTokenHash (some e)
      | none =>
        postAnalyzeEngine ctx req db contentHash wordCount charCount
          creatorTokenHash none

/-! ### Fetch-by-id endpoint (src/app/api/analysis/[id]/route.ts) -/

/-- Hex-digit test of the UUID regex. -/
def isHexChar (c : Char) : Bool :=
  (48 ≤ c.toNat && c.toNat ≤ 57) || (97 ≤ c.toNat && c.toNat ≤ 102) ||
  (65 ≤ c.toNat && c.toNat ≤ 70)

/-- The UUID regex of the route (line 22): 36 characters, hyphens at
positions 8, 13, 18, 23, hex digits elsewhere. -/
def isUuidFormat (s : String) : Bool :=
  s.data.length == 36 &&
  s.data.enum.all fun p =>
    if p.1 == 8 || p.1 == 13 || p.1 == 18 || p.1 == 23 then p.2 == '-'
    else isHexChar p.2

/-- Cached share-view payload / response data of the fetch endpoint. -/
structure ShareViewData where
  id : String
  analysis : AnalysisResult
  source_type : String
  source_url : Option String
  word_count : Nat
  created_at : Nat
  expires_at : Nat
  view_count : Nat
  company_name : Option String
  is_public : Bool
deriving DecidableEq, Repr

/-- Responses of GET /api/analysis/[id]. -/
inductive FetchResponse where
  | invalidId
  | success (data : ShareViewData) (cached : Bool)
  | notFound
  | expired
deriving DecidableEq, Repr

/-- External inputs of one GET /api/analysis/[id] request.  `cachedShare`
is the result of `getCachedShare` (a thrown Redis call already degrades to
`none` inside that function). -/
structure FetchCtx where
  cachedShare : Option ShareViewData
  now : Nat
  sessionHash : String
  newShareId : String

/-- Share bookkeeping, analytics and popularity tail of the fetch handler
(lines 93-144).  The final `cacheShare` is a best-effort Redis write with
no durable-store effect. -/
def finishFetch (ctx : FetchCtx) (id : String) (a : AnalysisRecord)
    (share : ShareRecord) (db : Db) : FetchResponse × Db :=
  let db2 := { db with events := db.events ++ [⟨some id, "share_viewed", ctx.sessionHash⟩] }
  let db3 :=
    if a.isPublic then
      let totalShareCount := (db2.shares.filter (fun s => s.analysisId == id)).length
      let newScore := calculatePopularityScore share.viewCount totalShareCount
      { db2 with analyses := db2.analyses.map fun r =>
          if r.id == id then { r with popularityScore := newScore } else r }
    else db2
  (.success ⟨a.id, a.analysisData, a.sourceType, a.sourceUrl, a.wordCount,
             a.createdAt, a.expiresAt, share.viewCount, a.companyName, a.isPublic⟩
     false, db3)

/-- GET /api/analysis/[id] (src/app/api/analysis/[id]/route.ts lines
14-157).  The share cache is consulted before the store; the expiry check
runs only on a cache miss. -/
def getAnalysisById (ctx : FetchCtx) (id : String) (db : Db) :
    FetchResponse × Db :=
  if !isUuidFormat id then (.invalidId, db)
  else
    match ctx.cachedShare with
    | some payload => (.success payload true, db)
    | none =>
      match db.analyses.find? (fun r => r.id == id) with
      | none => (.notFound, db)
      | some a =>
        if a.expiresAt < ctx.now then (.expired, db)
        else
          let related := db.shares.filter (fun s => s.analysisId == id)
          let newest := related.foldl
            (fun acc s =>
              match acc with
              | none => some s
              | some t => if s.createdAt > t.createdAt then some s else some t)
            none
          match newest with
          | none =>
            let share : ShareRecord := ⟨ctx.newShareId, id, ctx.sessionHash, ctx.now, a.expiresAt, 1⟩
            finishFetch ctx id a share { db with shares := db.shares ++ [share] }
          | some s0 =>
            let s1 := { s0 with viewCount := s0.viewCount + 1 }
            finishFetch ctx id a s1
              { db with shares := db.shares.map fun s => if s.id == s0.id then s1 else s }

/-! ### Concrete scenario data for witnesses and counterexamples -/

/-- The empty durable store. -/
def emptyDb : Db := ⟨[], [], []⟩

/-- A 16-word, 93-character TOS snippet (passes all input validation). -/
def sampleText : List Char :=
  "this agreement sets forth the terms of service that you must accept before using the product".data

/-- An engine result classifying the input as a poem (not a legal
document). -/
def samplePoemResult : AnalysisResult :=
  ⟨⟨"Unknown", .low, "unclear"⟩,
   ⟨false, .not_legal, 20, some "This appears to be a poem, not a legal document"⟩,
   ⟨.low, 0, 0, 0, 0, []⟩, []⟩

/-- An engine result for a valid TOS document. -/
def sampleLegalResult : AnalysisResult :=
  ⟨⟨"Acme", .high, "header"⟩, ⟨true, .tos, 95, none⟩,
   ⟨.medium, 3, 1, 1, 1, ["sample takeaway"]⟩, []⟩

/-- A plain paste request carrying `sampleText`. -/
def sampleReq : AnalyzeRequest := ⟨sampleText, "paste", none, none, false⟩

/-- Context for the invalid-document scenario: healthy backend, engine
reports a poem. -/
def c6Ctx : AnalyzeCtx :=
  ⟨okBackend, "198.51.100.1", 10, 5000000, "2026-10-11", 1000, "sess", "tok",
   "salt", (fun s t => s ++ ":" ++ t), (fun s => s), "new-id",
   .ok (samplePoemResult, false, some 500), false, false⟩

/-- Context for the analytics-failure scenario: as `c6Ctx` but the engine
succeeds on a legal document and the analytics write throws. -/
def c9Ctx : AnalyzeCtx :=
  ⟨okBackend, "198.51.100.1", 10, 5000000, "2026-10-11", 1000, "sess", "tok",
   "salt", (fun s t => s ++ ":" ++ t), (fun s => s), "new-id",
   .ok (sampleLegalResult, false, some 500), true, false⟩

/-- Same request context with a healthy analytics write. -/
def c9CtxOk : AnalyzeCtx :=
  ⟨okBackend, "198.51.100.1", 10, 5000000, "2026-10-11", 1000, "sess", "tok",
   "salt", (fun s t => s ++ ":" ++ t), (fun s => s), "new-id",
   .ok (sampleLegalResult, false, some 500), false, false⟩

/-- An expired record holding the fingerprint of `sampleText` (created at
100, expired at 900, stored creator digest "old-hash"). -/
def c10Existing : AnalysisRecord :=
  ⟨"old-id", hashContent sampleText, "paste", none, samplePoemResult,
   5, 20, 100, 900, some "OldCo", false, 7, "old-hash"⟩

/-- Store holding only the expired record. -/
def c10Db : Db := ⟨[c10Existing], [], []⟩

/-- Context for the re-analysis overwrite scenario (now = 1000, after the
record expiry). -/
def c10Ctx : AnalyzeCtx :=
  ⟨okBackend, "198.51.100.1", 10, 5000000, "2026-10-11", 1000, "sess", "tok",
   "salt", (fun s t => s ++ ":" ++ t), (fun s => s), "new-id",
   .ok (sampleLegalResult, false, some 500), false, false⟩

/-- A syntactically valid share id. -/
def c8Uuid : String := "123e4567-e89b-12d3-a456-426614174000"

/-- A record for `c8Uuid` whose `expiresAt` (5) is in the past. -/
def c8Record : AnalysisRecord :=
  ⟨c8Uuid, "h".data, "paste", none, sampleLegalResult, 10, 50, 1, 5,
   some "Acme", false, 0, "hash"⟩

/-- A stale cached share view for `c8Uuid`. -/
def c8Payload : ShareViewData :=
  ⟨c8Uuid, sampleLegalResult, "paste", none, 10, 1, 5, 3, some "Acme", false⟩

/-- Fetch context with a share-cache hit. -/
def c8CtxHit : FetchCtx := ⟨some c8Payload, 10, "sess", "share-1"⟩

/-- Fetch context with a share-cache miss. -/
def c8CtxMiss : FetchCtx := ⟨none, 10, "sess", "share-1"⟩

/-- Store holding only the expired record for `c8Uuid`. -/
def c8Db : Db := ⟨[c8Record], [], []⟩

/-! ### Lemmas: takeWhile/dropWhile bookkeeping -/

theorem dropWhile_append_all {α : Type} {p : α → Bool} {u x : List α}
    (h : ∀ a ∈ u, p a = true) : (u ++ x).dropWhile p = x.dropWhile p := by
  induction u with
  | nil => rfl
  | cons a u ih =>
    have ha : p a = true := h a (List.mem_cons_self a u)
    simp only [List.cons_append, List.dropWhile_cons, ha, if_true]
    exact ih fun b hb => h b (List.mem_cons_of_mem a hb)

theorem dropWhile_all_nil {α : Type} {p : α → Bool} {l : List α}
    (h : ∀ a ∈ l, p a = true) : l.dropWhile p = [] := by
  induction l with
  | nil => rfl
  | cons a l ih =>
    rw [List.dropWhile_cons, if_pos (h a (List.mem_cons_self a l))]
    exact ih fun b hb => h b (List.mem_cons_of_mem a hb)

theorem takeWhile_append_all {α : Type} {p : α → Bool} {u x : List α}
    (h : ∀ a ∈ u, p a = true) : (u ++ x).takeWhile p = u ++ x.takeWhile p := by
  induction u with
  | nil => rfl
  | cons a u ih =>
    have ha : p a = true := h a (List.mem_cons_self a u)
    simp only [List.cons_append, List.takeWhile_cons, ha, if_true, ih
      fun b hb => h b (List.mem_cons_of_mem a hb)]

theorem takeWhile_append_stop {α : Type} {p : α → Bool} {u x : List α}
    (h : u.dropWhile p ≠ []) : (u ++ x).takeWhile p = u.takeWhile p := by
  induction u with
  | nil => simp [List.dropWhile_nil] at h
  | cons a u ih =>
    by_cases ha : p a = true
    · simp only [List.dropWhile_cons, ha, if_true] at h
      simp only [List.cons_append, List.takeWhile_cons, ha, if_true, ih h]
    · simp only [List.takeWhile_cons, List.cons_append,
        Bool.not_eq_true] at ha ⊢
      simp [ha]

theorem dropWhile_append_stop {α : Type} {p : α → Bool} {u x : List α}
    (h : u.dropWhile p ≠ []) : (u ++ x).dropWhile p = u.dropWhile p ++ x := by
  induction u with
  | nil => simp [List.dropWhile_nil] at h
  | cons a u ih =>
    by_cases ha : p a = true
    · simp only [List.dropWhile_cons, ha, if_true] at h
      simp only [List.cons_append, List.dropWhile_cons, ha, if_true, ih h]
    · simp only [Bool.not_eq_true] at ha
      simp [List.dropWhile_cons, ha]

theorem dropWhile_head_false {α : Type} {p : α → Bool} {l : List α} {c : α}
    {r : List α} (h : l.dropWhile p = c :: r) : p c = false := by
  have := List.head?_dropWhile_not p l
  rw [h] at this
  simpa using this

theorem mem_takeWhile_pred {α : Type} {p : α → Bool} {l : List α} {a : α}
    (h : a ∈ l.takeWhile p) : p a = true := by
  induction l with
  | nil => simp [List.takeWhile_nil] at h
  | cons b l ih =>
    rw [List.takeWhile_cons] at h
    by_cases hb : p b = true
    · simp only [hb, if_true, List.mem_cons] at h
      rcases h with rfl | h
      · exact hb
      · exact ih h
    · simp [hb] at h

/-! ### Lemmas: trimRight -/

theorem trimRight_cons_eq (c : Char) (cs : List Char) :
    trimRight (c :: cs) =
      match trimRight cs with
      | [] => if isWsChar c then [] else [c]
      | r => c :: r := rfl

theorem trimRight_cons_not_ws {c : Char} (h : isWsChar c = false)
    (cs : List Char) : trimRight (c :: cs) = c :: trimRight cs := by
  rw [trimRight_cons_eq]
  cases htr : trimRight cs with
  | nil => simp [h]
  | cons a r => simp

theorem trimRight_eq_nil_iff {l : List Char} :
    trimRight l = [] ↔ ∀ a ∈ l, isWsChar a = true := by
  induction l with
  | nil => simp [trimRight]
  | cons c cs ih =>
    rw [trimRight_cons_eq]
    cases htr : trimRight cs with
    | nil =>
      rw [htr] at ih
      by_cases hc : isWsChar c = true
      · simp only [hc, if_true, List.mem_cons, true_iff]
        intro a ha
        rcases ha with rfl | ha
        · exact hc
        · exact ih.mp rfl a ha
      · constructor
        · intro h; simp [hc] at h
        · intro h; exact absurd (h c (List.mem_cons_self c cs)) (by simp [hc])
    | cons a r =>
      rw [htr] at ih
      constructor
      · intro h; simp at h
      · intro h
        exact absurd (ih.mpr fun b hb => h b (List.mem_cons_of_mem c hb)) (by simp)

theorem trimRight_all_ws {l : List Char} (h : ∀ a ∈ l, isWsChar a = true) :
    trimRight l = [] := trimRight_eq_nil_iff.mpr h

theorem trimRight_all_not_ws {l : List Char}
    (h : ∀ a ∈ l, isWsChar a = false) : trimRight l = l := by
  induction l with
  | nil => rfl
  | cons c cs ih =>
    rw [trimRight_cons_not_ws (h c (List.mem_cons_self c cs)),
      ih fun b hb => h b (List.mem_cons_of_mem c hb)]

theorem trimRight_append_of_ne_nil {r : List Char} (h : trimRight r ≠ [])
    (l : List Char) : trimRight (l ++ r) = l ++ trimRight r := by
  induction l with
  | nil => rfl
  | cons c l ih =>
    rw [List.cons_append, trimRight_cons_eq, ih]
    cases htr : trimRight r with
    | nil => exact absurd htr h
    | cons a q => cases l <;> simp

theorem trimRight_append_all_ws {r : List Char}
    (h : ∀ a ∈ r, isWsChar a = true) (l : List Char) :
    trimRight (l ++ r) = trimRight l := by
  induction l with
  | nil => simpa using trimRight_all_ws h
  | cons c l ih => rw [List.cons_append, trimRight_cons_eq, ih, trimRight_cons_eq]

theorem trimRight_cons_ws_of_ne_nil {c : Char} {cs : List Char}
    (hne : trimRight (c :: cs) ≠ []) (hws : isWsChar c = true) :
    trimRight (c :: cs) = c :: trimRight cs ∧ trimRight cs ≠ [] := by
  rw [trimRight_cons_eq] at hne ⊢
  cases htr : trimRight cs with
  | nil => rw [htr] at hne; simp [hws] at hne
  | cons a r => simp

theorem trimRight_front (l : List Char) : trimRight l <+: l := by
  induction l with
  | nil => exact ⟨[], rfl⟩
  | cons c cs ih =>
    rw [trimRight_cons_eq]
    cases htr : trimRight cs with
    | nil =>
      by_cases hc : isWsChar c = true
      · simp [hc]
      · simp [hc]
    | cons a r =>
      rw [htr] at ih
      obtain ⟨t, ht⟩ := ih
      exact ⟨t, by rw [List.cons_append, ht]⟩

theorem trimRight_idem (l : List Char) : trimRight (trimRight l) = trimRight l := by
  induction l with
  | nil => rfl
  | cons c cs ih =>
    rw [trimRight_cons_eq]
    cases htr : trimRight cs with
    | nil =>
      by_cases hc : isWsChar c = true
      · simp [hc, trimRight]
      · simp [hc, trimRight_cons_eq, trimRight]
    | cons a r =>
      rw [htr] at ih
      rw [trimRight_cons_eq, ih]

theorem trimRight_head {c : Char} {cs : List Char}
    (h : trimRight (c :: cs) ≠ []) : ∃ r, trimRight (c :: cs) = c :: r := by
  rw [trimRight_cons_eq] at h ⊢
  cases htr : trimRight cs with
  | nil =>
    rw [htr] at h
    by_cases hc : isWsChar c = true
    · simp [hc] at h
    · exact ⟨[], by simp [hc]⟩
  | cons a r => exact ⟨a :: r, by simp⟩

theorem mem_trimRight {l : List Char} {a : Char} (h : a ∈ trimRight l) :
    a ∈ l := ((trimRight_front l).sublist).mem h

theorem trimRight_decomp (l : List Char) :
    ∃ w, l = trimRight l ++ w ∧ ∀ a ∈ w, isWsChar a = true := by
  induction l with
  | nil => exact ⟨[], rfl, by simp⟩
  | cons c cs ih =>
    obtain ⟨w, hw, hws⟩ := ih
    rw [trimRight_cons_eq]
    cases htr : trimRight cs with
    | nil =>
      rw [htr] at hw
      by_cases hc : isWsChar c = true
      · refine ⟨c :: cs, by simp [hc], ?_⟩
        intro a ha
        rcases List.mem_cons.mp ha with rfl | ha
        · exact hc
        · rw [hw] at ha; simpa using hws a (by simpa using ha)
      · exact ⟨w, by simpa [hc] using congrArg (c :: ·) hw, hws⟩
    | cons b r =>
      rw [htr] at hw
      exact ⟨w, by simpa using congrArg (c :: ·) hw, hws⟩

/-! ### Lemmas: trim composition -/

theorem trimList_nil : trimList [] = [] := rfl

theorem trimList_cons_ws {c : Char} (h : isWsChar c = true) (cs : List Char) :
    trimList (c :: cs) = trimList cs := by
  simp [trimList, trimLeft, List.dropWhile_cons, h]

theorem trimList_cons_not_ws {c : Char} (h : isWsChar c = false)
    (cs : List Char) : trimList (c :: cs) = trimRight (c :: cs) := by
  simp [trimList, trimLeft, List.dropWhile_cons, h]

theorem mem_trimList {l : List Char} {a : Char} (h : a ∈ trimList l) : a ∈ l :=
  (List.dropWhile_sublist isWsChar).mem (mem_trimRight h)

theorem dropWhile_trimRight_comm (l : List Char) :
    (trimRight l).dropWhile isWsChar = trimRight (l.dropWhile isWsChar) := by
  cases hrest : l.dropWhile isWsChar with
  | nil =>
    have hall : ∀ a ∈ l.takeWhile isWsChar, isWsChar a = true :=
      fun a ha => mem_takeWhile_pred ha
    have hl : l = l.takeWhile isWsChar := by
      conv_lhs => rw [← List.takeWhile_append_dropWhile isWsChar l]
      rw [hrest, List.append_nil]
    rw [hl, trimRight_all_ws hall]
    rfl
  | cons r0 rest =>
    have hr0 : isWsChar r0 = false := dropWhile_head_false hrest
    have hne : trimRight (r0 :: rest) ≠ [] := by
      rw [trimRight_cons_not_ws hr0]
      simp
    have hdecomp : l = l.takeWhile isWsChar ++ (r0 :: rest) := by
      conv_lhs => rw [← List.takeWhile_append_dropWhile isWsChar l]
      rw [hrest]
    rw [hdecomp, trimRight_append_of_ne_nil hne,
      dropWhile_append_all (fun a ha => mem_takeWhile_pred ha)]
    obtain ⟨q, hq⟩ := trimRight_head hne
    rw [hq, List.dropWhile_cons, hr0]
    simp

theorem trimLeft_trimList (l : List Char) : trimLeft (trimList l) = trimList l := by
  unfold trimList
  rw [show trimLeft l = l.dropWhile isWsChar from rfl]
  cases hrest : l.dropWhile isWsChar with
  | nil => rfl
  | cons r0 rest =>
    have hr0 : isWsChar r0 = false := dropWhile_head_false hrest
    by_cases hne : trimRight (r0 :: rest) = []
    · rw [hne]; rfl
    · obtain ⟨q, hq⟩ := trimRight_head hne
      rw [hq]
      simp [trimLeft, List.dropWhile_cons, hr0]

theorem trimList_idem (l : List Char) : trimList (trimList l) = trimList l := by
  conv_lhs => rw [trimList, trimLeft_trimList]
  exact trimRight_idem _

/-! ### Lemmas: collapseWs -/

theorem collapseWs_cons_not_ws {c : Char} (h : isWsChar c = false)
    (cs : List Char) : collapseWs (c :: cs) = c :: collapseWs cs := by
  cases cs with
  | nil => simp [collapseWs, h]
  | cons d cs => simp [collapseWs, h]

theorem collapseWs_cons_ws {c : Char} (h : isWsChar c = true) :
    ∀ cs : List Char,
      collapseWs (c :: cs) = ' ' :: collapseWs (cs.dropWhile isWsChar) := by
  intro cs
  induction cs generalizing c with
  | nil => simp [collapseWs, h]
  | cons d cs ih =>
    by_cases hd : isWsChar d = true
    · rw [show collapseWs (c :: d :: cs) = collapseWs (d :: cs) by
        simp [collapseWs, h, hd]]
      rw [ih hd, List.dropWhile_cons, hd]
      simp
    · simp only [Bool.not_eq_true] at hd
      rw [show collapseWs (c :: d :: cs) = ' ' :: collapseWs (d :: cs) by
        simp [collapseWs, h, hd]]
      rw [List.dropWhile_cons, hd]
      simp

theorem collapseWs_append_not_ws {u : List Char}
    (h : ∀ a ∈ u, isWsChar a = false) (x : List Char) :
    collapseWs (u ++ x) = u ++ collapseWs x := by
  induction u with
  | nil => rfl
  | cons c u ih =>
    rw [List.cons_append,
      collapseWs_cons_not_ws (h c (List.mem_cons_self c u)),
      ih fun b hb => h b (List.mem_cons_of_mem c hb), List.cons_append]

theorem collapseWs_all_not_ws {u : List Char}
    (h : ∀ a ∈ u, isWsChar a = false) : collapseWs u = u := by
  have h0 : collapseWs ([] : List Char) = [] := rfl
  have h1 := collapseWs_append_not_ws h []
  rw [List.append_nil, h0, List.append_nil] at h1
  exact h1

theorem mem_collapseWs {a : Char} :
    ∀ {l : List Char}, a ∈ collapseWs l → a = ' ' ∨ a ∈ l := by
  intro l
  induction l using collapseWs.induct with
  | case1 => intro h; simp [collapseWs] at h
  | case2 c hc =>
    intro h
    rw [collapseWs, if_pos hc] at h
    exact Or.inl (by simpa using h)
  | case3 c hc =>
    intro h
    rw [collapseWs, if_neg hc] at h
    exact Or.inr (by simpa using h)
  | case4 c d cs hcd ih =>
    intro h
    rw [collapseWs, if_pos hcd] at h
    rcases ih h with h | h
    · exact Or.inl h
    · exact Or.inr (List.mem_cons_of_mem c h)
  | case5 c d cs hcd ih =>
    intro h
    rw [collapseWs, if_neg hcd] at h
    rcases List.mem_cons.mp h with rfl | h
    · by_cases hc : isWsChar c = true
      · exact Or.inl (by simp [hc])
      · exact Or.inr (by simp [hc])
    · rcases ih h with h | h
      · exact Or.inl h
      · exact Or.inr (List.mem_cons_of_mem c h)

theorem collapseWs_ws_space {l : List Char} {a : Char} (h : a ∈ collapseWs l)
    (hws : isWsChar a = true) : a = ' ' := by
  induction l using collapseWs.induct with
  | case1 => simp [collapseWs] at h
  | case2 c hc =>
    rw [collapseWs, if_pos hc] at h
    simpa using h
  | case3 c hc =>
    rw [collapseWs, if_neg hc] at h
    have : a = c := by simpa using h
    subst this
    simp [hws] at hc
  | case4 c d cs hcd ih =>
    rw [collapseWs, if_pos hcd] at h
    exact ih h
  | case5 c d cs hcd ih =>
    rw [collapseWs, if_neg hcd] at h
    rcases List.mem_cons.mp h with rfl | h
    · by_cases hc : isWsChar c = true
      · simp [hc]
      · simp [hc] at hws ⊢
    · exact ih h

/-- Adjacent characters of a collapsed list are never both whitespace. -/
theorem chain_collapseWs (l : List Char) :
    List.Chain' (fun a b => ¬(isWsChar a = true ∧ isWsChar b = true))
      (collapseWs l) := by
  induction l using collapseWs.induct with
  | case1 => simp [collapseWs]
  | case2 c hc => rw [collapseWs, if_pos hc]; simp
  | case3 c hc => rw [collapseWs, if_neg hc]; simp
  | case4 c d cs hcd ih => rw [collapseWs, if_pos hcd]; exact ih
  | case5 c d cs hcd ih =>
    rw [collapseWs, if_neg hcd]
    rw [List.chain'_cons']
    refine ⟨?_, ih⟩
    intro y hy
    by_cases hc : isWsChar c = true
    · have hd : isWsChar d = false := by
        cases hdd : isWsChar d
        · rfl
        · rw [hc, hdd] at hcd; simp at hcd
      -- head of the collapsed tail is d itself when d is not whitespace
      rw [collapseWs_cons_not_ws hd] at hy
      simp only [List.head?_cons, Option.mem_def, Option.some.injEq] at hy
      subst hy
      simp [hd]
    · simp only [hc, if_false]
      intro hcontra
      exact absurd hcontra.1 (by simp [hc])

/-- A list with no adjacent whitespace pair whose whitespace characters
are all plain spaces is a fixed point of `collapseWs`. -/
theorem collapseWs_eq_self {l : List Char}
    (h1 : List.Chain' (fun a b => ¬(isWsChar a = true ∧ isWsChar b = true)) l)
    (h2 : ∀ a ∈ l, isWsChar a = true → a = ' ') : collapseWs l = l := by
  induction l using collapseWs.induct with
  | case1 => rfl
  | case2 c hc =>
    rw [collapseWs, if_pos hc, h2 c (List.mem_cons_self c []) hc]
  | case3 c hc => rw [collapseWs, if_neg hc]
  | case4 c d cs hcd ih =>
    rcases Bool.and_eq_true_iff.mp hcd with ⟨hc, hd⟩
    rw [List.chain'_cons'] at h1
    exact absurd ⟨hc, hd⟩ (h1.1 d (by simp))
  | case5 c d cs hcd ih =>
    rw [collapseWs, if_neg hcd]
    rw [List.chain'_cons'] at h1
    have tail := ih h1.2 fun a ha hws => h2 a (List.mem_cons_of_mem c ha) hws
    rw [tail]
    by_cases hc : isWsChar c = true
    · rw [if_pos hc, h2 c (List.mem_cons_self c _) hc]
    · rw [if_neg hc]

/-! ### Lemmas: wordsWs -/

theorem wordsWs_cons_ws {c : Char} (h : isWsChar c = true) (cs : List Char) :
    wordsWs (c :: cs) = wordsWs cs := by
  cases cs with
  | nil => simp [wordsWs, h]
  | cons d cs => simp [wordsWs, h]

theorem wordsWs_cons_not_ws {c : Char} (h : isWsChar c = false) :
    ∀ cs : List Char,
      wordsWs (c :: cs) = (c :: cs.takeWhile (fun d => !isWsChar d)) ::
        wordsWs (cs.dropWhile (fun d => !isWsChar d)) := by
  intro cs
  induction cs generalizing c with
  | nil => simp [wordsWs, h]
  | cons d cs ih =>
    by_cases hd : isWsChar d = true
    · have hwd : wordsWs (c :: d :: cs) =
          match wordsWs (d :: cs) with
          | [] => [[c]]
          | w :: rest => [c] :: w :: rest := by
        rw [show wordsWs (c :: d :: cs) =
            (if isWsChar c then wordsWs (d :: cs)
             else match wordsWs (d :: cs) with
                  | [] => [[c]]
                  | w :: rest =>
                    if isWsChar d then [c] :: w :: rest else (c :: w) :: rest)
          from rfl, h]
        simp only [if_false, hd, if_true]
        cases wordsWs (d :: cs) <;> simp
      rw [hwd]
      have htk : (d :: cs).takeWhile (fun d => !isWsChar d) = [] := by
        simp [List.takeWhile_cons, hd]
      have hdp : (d :: cs).dropWhile (fun d => !isWsChar d) = d :: cs := by
        simp [List.dropWhile_cons, hd]
      rw [htk, hdp]
      cases hw : wordsWs (d :: cs) <;> simp
    · simp only [Bool.not_eq_true] at hd
      have hrec := ih hd
      have hwd : wordsWs (c :: d :: cs) = (c :: d ::
          cs.takeWhile (fun d => !isWsChar d)) ::
          wordsWs (cs.dropWhile (fun d => !isWsChar d)) := by
        rw [show wordsWs (c :: d :: cs) =
            (if isWsChar c then wordsWs (d :: cs)
             else match wordsWs (d :: cs) with
                  | [] => [[c]]
                  | w :: rest =>
                    if isWsChar d then [c] :: w :: rest else (c :: w) :: rest)
          from rfl, h, hrec]
        simp [hd]
      rw [hwd, List.takeWhile_cons, List.dropWhile_cons]
      simp [hd]

theorem wordsWs_eq_nil_iff {l : List Char} :
    wordsWs l = [] ↔ ∀ a ∈ l, isWsChar a = true := by
  induction l with
  | nil => simp [wordsWs]
  | cons c cs ih =>
    by_cases hc : isWsChar c = true
    · rw [wordsWs_cons_ws hc, ih]
      constructor
      · intro h a ha
        rcases List.mem_cons.mp ha with rfl | ha
        · exact hc
        · exact h a ha
      · intro h a ha; exact h a (List.mem_cons_of_mem c ha)
    · simp only [Bool.not_eq_true] at hc
      rw [wordsWs_cons_not_ws hc]
      constructor
      · intro h; simp at h
      · intro h; exact absurd (h c (List.mem_cons_self c cs)) (by simp [hc])

theorem wordsWs_wsLead {w : List Char} (h : ∀ a ∈ w, isWsChar a = true)
    (l : List Char) : wordsWs (w ++ l) = wordsWs l := by
  induction w with
  | nil => rfl
  | cons c cs ih =>
    rw [List.cons_append, wordsWs_cons_ws (h c (List.mem_cons_self c cs)),
      ih fun b hb => h b (List.mem_cons_of_mem c hb)]

/-- Splitting at a non-empty whitespace separator splits the word list. -/
theorem wordsWs_append_sep (sep : List Char) (hne : sep ≠ [])
    (hws : ∀ a ∈ sep, isWsChar a = true) :
    ∀ (a b : List Char), wordsWs (a ++ sep ++ b) = wordsWs a ++ wordsWs b := by
  have main : ∀ (n : Nat) (a : List Char), a.length ≤ n → ∀ b : List Char,
      wordsWs (a ++ sep ++ b) = wordsWs a ++ wordsWs b := by
    intro n
    induction n with
    | zero =>
      intro a ha b
      have : a = [] := List.length_eq_zero.mp (Nat.le_zero.mp ha)
      subst this
      simpa using wordsWs_wsLead hws b
    | succ n ihn =>
      intro a ha b
      cases a with
      | nil => simpa using wordsWs_wsLead hws b
      | cons c cs =>
        by_cases hc : isWsChar c = true
        · rw [List.cons_append, List.cons_append, wordsWs_cons_ws hc,
            wordsWs_cons_ws hc]
          exact ihn cs (Nat.le_of_succ_le_succ ha) b
        · simp only [Bool.not_eq_true] at hc
          set q : Char → Bool := fun d => !isWsChar d with hq
          rw [List.cons_append, List.cons_append, wordsWs_cons_not_ws hc,
            wordsWs_cons_not_ws hc]
          by_cases hdp : cs.dropWhile q = []
          · -- the whole remainder of `cs` is one word; the separator stops it
            have hallq : ∀ a ∈ cs, q a = true := by
              intro a hcs
              by_contra hqa
              have hsub := List.takeWhile_append_dropWhile q cs
              rw [hdp, List.append_nil] at hsub
              exact hqa (mem_takeWhile_pred (by rw [hsub]; exact hcs))
            obtain ⟨s0, sep', rfl⟩ := List.exists_cons_of_ne_nil hne
            have hs0 : q s0 = false := by
              simp [hq, hws s0 (List.mem_cons_self s0 sep')]
            have htk2 : (cs ++ (s0 :: sep') ++ b).takeWhile q = cs := by
              rw [List.append_assoc, takeWhile_append_all hallq,
                List.cons_append, List.takeWhile_cons, hs0]
              simp
            have hdp2 : (cs ++ (s0 :: sep') ++ b).dropWhile q =
                (s0 :: sep') ++ b := by
              rw [List.append_assoc, dropWhile_append_all hallq,
                List.cons_append, List.dropWhile_cons, hs0]
              simp
            have htk1 : cs.takeWhile q = cs := by
              have hsub := List.takeWhile_append_dropWhile q cs
              rw [hdp, List.append_nil] at hsub
              exact hsub
            rw [htk2, hdp2, htk1, hdp]
            rw [show wordsWs ([] : List Char) = [] from rfl]
            rw [wordsWs_wsLead hws b]
            simp
          · -- the word ends inside `cs`
            have htk2 : (cs ++ sep ++ b).takeWhile q = cs.takeWhile q := by
              rw [List.append_assoc, takeWhile_append_stop hdp]
            have hdp2 : (cs ++ sep ++ b).dropWhile q =
                cs.dropWhile q ++ sep ++ b := by
              rw [List.append_assoc, dropWhile_append_stop hdp,
                List.append_assoc]
            rw [htk2, hdp2]
            obtain ⟨e, d', hed⟩ := List.exists_cons_of_ne_nil hdp
            have he : isWsChar e = true := by
              have := dropWhile_head_false hed
              simpa [hq] using this
            have hlen : d'.length ≤ n := by
              have h1 : (cs.dropWhile q).length ≤ cs.length :=
                (List.dropWhile_sublist q).length_le
              rw [hed] at h1
              simp only [List.length_cons] at h1
              have h2 : cs.length ≤ n := Nat.le_of_succ_le_succ ha
              omega
            rw [hed, List.cons_append, List.cons_append, wordsWs_cons_ws he,
              wordsWs_cons_ws he]
            rw [ihn d' hlen b]
            simp
  intro a b
  exact main a.length a (Nat.le_refl _) b

theorem wordsWs_single_word {w : List Char} (hne : w ≠ [])
    (h : ∀ a ∈ w, isWsChar a = false) : wordsWs w = [w] := by
  obtain ⟨c, cs, rfl⟩ := List.exists_cons_of_ne_nil hne
  rw [wordsWs_cons_not_ws (h c (List.mem_cons_self c cs))]
  have htk : cs.takeWhile (fun d => !isWsChar d) = cs := by
    rw [List.takeWhile_eq_self_iff]
    intro a ha
    simp [h a (List.mem_cons_of_mem c ha)]
  have hdp : cs.dropWhile (fun d => !isWsChar d) = [] := by
    rw [List.dropWhile_eq_nil_iff]
    intro a ha
    simp [h a (List.mem_cons_of_mem c ha)]
  rw [htk, hdp]
  rfl

theorem wordsWs_joinWords : ∀ {ws : List (List Char)},
    (∀ w ∈ ws, w ≠ [] ∧ ∀ a ∈ w, isWsChar a = false) →
    wordsWs (joinWords ws) = ws := by
  intro ws
  induction ws with
  | nil => intro _; rfl
  | cons w vs ih =>
    intro h
    cases vs with
    | nil =>
      have hw := h w (List.mem_cons_self w [])
      rw [show joinWords [w] = w from rfl, wordsWs_single_word hw.1 hw.2]
    | cons v vs' =>
      have hw := h w (List.mem_cons_self w _)
      rw [show joinWords (w :: v :: vs') = w ++ ' ' :: joinWords (v :: vs')
        from rfl]
      have hsplit := wordsWs_append_sep [' '] (by simp)
        (by intro a ha; simp at ha; subst ha; rfl) w (joinWords (v :: vs'))
      rw [show w ++ ' ' :: joinWords (v :: vs') =
          w ++ [' '] ++ joinWords (v :: vs') by simp, hsplit,
        wordsWs_single_word hw.1 hw.2,
        ih fun u hu => h u (List.mem_cons_of_mem w hu)]
      rfl

theorem wordsWs_trimLeft (l : List Char) : wordsWs (trimLeft l) = wordsWs l := by
  induction l with
  | nil => rfl
  | cons c cs ih =>
    by_cases hc : isWsChar c = true
    · rw [show trimLeft (c :: cs) = trimLeft cs by
        simp [trimLeft, List.dropWhile_cons, hc], ih, wordsWs_cons_ws hc]
    · simp only [Bool.not_eq_true] at hc
      rw [show trimLeft (c :: cs) = c :: cs by
        simp [trimLeft, List.dropWhile_cons, hc]]

theorem wordsWs_trimRight (l : List Char) : wordsWs (trimRight l) = wordsWs l := by
  obtain ⟨w, hw, hws⟩ := trimRight_decomp l
  conv_rhs => rw [hw]
  cases hwn : w with
  | nil => simp
  | cons x xs =>
    rw [hwn] at hw hws
    have := wordsWs_append_sep (x :: xs) (by simp) hws (trimRight l) []
    rw [List.append_nil] at this
    rw [this, show wordsWs ([] : List Char) = [] from rfl, List.append_nil]

theorem wordsWs_trimList (l : List Char) : wordsWs (trimList l) = wordsWs l := by
  rw [trimList, wordsWs_trimRight, wordsWs_trimLeft]

/-- Factorization: trimming then collapsing whitespace is exactly joining
the whitespace-separated words with single spaces. -/
theorem collapseWs_trimList (l : List Char) :
    collapseWs (trimList l) = joinWords (wordsWs l) := by
  have main : ∀ (n : Nat) (l : List Char), l.length ≤ n →
      collapseWs (trimList l) = joinWords (wordsWs l) := by
    intro n
    induction n with
    | zero =>
      intro l hl
      have : l = [] := List.length_eq_zero.mp (Nat.le_zero.mp hl)
      subst this; rfl
    | succ n ihn =>
      intro l hl
      cases l with
      | nil => rfl
      | cons c cs =>
        by_cases hc : isWsChar c = true
        · rw [trimList_cons_ws hc, wordsWs_cons_ws hc]
          exact ihn cs (Nat.le_of_succ_le_succ hl)
        · simp only [Bool.not_eq_true] at hc
          rw [trimList_cons_not_ws hc, trimRight_cons_not_ws hc,
            collapseWs_cons_not_ws hc, wordsWs_cons_not_ws hc]
          have htall : ∀ a ∈ cs.takeWhile (fun d => !isWsChar d),
              isWsChar a = false := by
            intro a ha
            have := mem_takeWhile_pred ha
            simpa using this
          by_cases hdnil : cs.dropWhile (fun d => !isWsChar d) = []
          · have hcs : cs = cs.takeWhile (fun d => !isWsChar d) := by
              have h0 := List.takeWhile_append_dropWhile
                (fun d => !isWsChar d) cs
              rw [hdnil, List.append_nil] at h0
              exact h0.symm
            rw [hdnil]
            conv_lhs => rw [hcs]
            rw [trimRight_all_not_ws htall, collapseWs_all_not_ws htall]
            rfl
          · obtain ⟨e, d', hed⟩ := List.exists_cons_of_ne_nil hdnil
            have he : isWsChar e = true := by
              have := dropWhile_head_false hed
              simpa using this
            have hcs : cs = cs.takeWhile (fun d => !isWsChar d) ++
                cs.dropWhile (fun d => !isWsChar d) :=
              (List.takeWhile_append_dropWhile _ cs).symm
            by_cases htr : trimRight (cs.dropWhile (fun d => !isWsChar d)) = []
            · have hdall := trimRight_eq_nil_iff.mp htr
              have h1 : trimRight cs = cs.takeWhile (fun d => !isWsChar d) := by
                conv_lhs => rw [hcs]
                rw [trimRight_append_all_ws hdall, trimRight_all_not_ws htall]
              rw [h1, collapseWs_all_not_ws htall,
                wordsWs_eq_nil_iff.mpr hdall]
              rfl
            · have h1 : trimRight cs = cs.takeWhile (fun d => !isWsChar d) ++
                  trimRight (cs.dropWhile (fun d => !isWsChar d)) := by
                conv_lhs => rw [hcs]
                exact trimRight_append_of_ne_nil htr _
              rw [h1, collapseWs_append_not_ws htall]
              rw [hed] at htr
              obtain ⟨heq, hne'⟩ := trimRight_cons_ws_of_ne_nil htr he
              rw [hed, heq, collapseWs_cons_ws he, dropWhile_trimRight_comm]
              have hlen : d'.length ≤ n := by
                have h2 : (cs.dropWhile (fun d => !isWsChar d)).length ≤
                    cs.length := (List.dropWhile_sublist _).length_le
                rw [hed] at h2
                simp only [List.length_cons] at h2
                have h3 : cs.length ≤ n := Nat.le_of_succ_le_succ hl
                omega
              rw [show trimRight (d'.dropWhile isWsChar) = trimList d' from rfl,
                ihn d' hlen, wordsWs_cons_ws he]
              have hwne : wordsWs d' ≠ [] := by
                intro hnil
                exact hne' (trimRight_all_ws (wordsWs_eq_nil_iff.mp hnil))
              obtain ⟨w0, ws0, hw0⟩ := List.exists_cons_of_ne_nil hwne
              rw [hw0]
              rw [show joinWords ((c :: cs.takeWhile (fun d => !isWsChar d)) ::
                  w0 :: ws0) = (c :: cs.takeWhile (fun d => !isWsChar d)) ++
                  ' ' :: joinWords (w0 :: ws0) from rfl]
              simp
  exact main l.length l (Nat.le_refl _)

/-- Rewriting `normalizeText` through the word structure of the lowercased input. -/
theorem normalizeText_eq_words (l : List Char) :
    normalizeText l =
      trimList (stripChars (joinWords (wordsWs (l.map Char.toLower)))) := by
  rw [normalizeText, collapseWs_trimList]

/-! ### Lemmas: Char.toLower -/

theorem char_toNat_ofNat {n : Nat} (h : n.isValidChar) :
    (Char.ofNat n).toNat = n := by
  rw [Char.ofNat, dif_pos h]
  simp [Char.ofNatAux, Char.toNat, UInt32.toNat, UInt32.ofNat',
    BitVec.toNat_ofNatLt]

theorem toLower_toLower (c : Char) :
    Char.toLower (Char.toLower c) = Char.toLower c := by
  unfold Char.toLower
  by_cases h : Char.toNat c ≥ 65 ∧ Char.toNat c ≤ 90
  · rw [if_pos h]
    have hval : (Char.toNat c + 32).isValidChar := Or.inl (by omega)
    rw [char_toNat_ofNat hval, if_neg (by omega)]
  · rw [if_neg h, if_neg h]

theorem isWsChar_cases {c : Char} (h : isWsChar c = true) :
    c = ' ' ∨ c = '\t' ∨ c = '\n' ∨ c = '\r' ∨ c = '\x0b' ∨ c = '\x0c' := by
  rw [isWsChar] at h
  rcases Bool.or_eq_true_iff.mp h with h | h
  · rcases Bool.or_eq_true_iff.mp h with h | h
    · rcases Bool.or_eq_true_iff.mp h with h | h
      · rcases Bool.or_eq_true_iff.mp h with h | h
        · rcases Bool.or_eq_true_iff.mp h with h | h
          · exact Or.inl (eq_of_beq h)
          · exact Or.inr (Or.inl (eq_of_beq h))
        · exact Or.inr (Or.inr (Or.inl (eq_of_beq h)))
      · exact Or.inr (Or.inr (Or.inr (Or.inl (eq_of_beq h))))
    · exact Or.inr (Or.inr (Or.inr (Or.inr (Or.inl (eq_of_beq h)))))
  · exact Or.inr (Or.inr (Or.inr (Or.inr (Or.inr (eq_of_beq h)))))

theorem toLower_ws_fix {c : Char} (h : isWsChar c = true) :
    Char.toLower c = c := by
  rcases isWsChar_cases h with rfl | rfl | rfl | rfl | rfl | rfl <;> rfl

theorem map_toLower_eq_self {l : List Char}
    (h : ∀ a ∈ l, Char.toLower a = a) : l.map Char.toLower = l := by
  induction l with
  | nil => rfl
  | cons c cs ih =>
    rw [List.map_cons, h c (List.mem_cons_self c cs),
      ih fun b hb => h b (List.mem_cons_of_mem c hb)]

/-! ### Lemmas: canonicity of normalized text -/

theorem normalizeText_mem {l : List Char} {a : Char}
    (h : a ∈ normalizeText l) : keptChar a = true ∧ Char.toLower a = a := by
  rw [normalizeText] at h
  have h1 := mem_trimList h
  have h2 := List.mem_filter.mp h1
  refine ⟨h2.2, ?_⟩
  rcases mem_collapseWs h2.1 with rfl | h3
  · rfl
  · have h4 := mem_trimList h3
    obtain ⟨b, _, rfl⟩ := List.mem_map.mp h4
    exact toLower_toLower b

theorem trimList_normalizeText (l : List Char) :
    trimList (normalizeText l) = normalizeText l := by
  rw [normalizeText]
  exact trimList_idem _

/-- On already-canonical text (whitelist characters, lowercase, trimmed),
`normalizeText` reduces to trim-of-collapse. -/
theorem normalizeText_of_canonical {l : List Char}
    (hkept : ∀ a ∈ l, keptChar a = true)
    (hlow : ∀ a ∈ l, Char.toLower a = a)
    (htrim : trimList l = l) :
    normalizeText l = trimList (collapseWs l) := by
  rw [normalizeText, map_toLower_eq_self hlow, htrim]
  have hstrip : stripChars (collapseWs l) = collapseWs l := by
    rw [stripChars, List.filter_eq_self]
    intro a ha
    rcases mem_collapseWs ha with rfl | ha2
    · rfl
    · exact hkept a ha2
  rw [hstrip]

theorem chain_trimList {R : Char → Char → Prop} {l : List Char}
    (h : List.Chain' R l) : List.Chain' R (trimList l) := by
  have h1 : List.Chain' R (trimLeft l) :=
    h.suffix ⟨l.takeWhile isWsChar, List.takeWhile_append_dropWhile isWsChar l⟩
  exact h1.prefix (trimRight_front _)

theorem normalize_normalize (x : List Char) :
    normalizeText (normalizeText x) =
      trimList (collapseWs (normalizeText x)) :=
  normalizeText_of_canonical (fun a ha => (normalizeText_mem ha).1)
    (fun a ha => (normalizeText_mem ha).2) (trimList_normalizeText x)

theorem double_normalize_mem {x : List Char} {a : Char}
    (h : a ∈ normalizeText (normalizeText x)) :
    keptChar a = true ∧ Char.toLower a = a := normalizeText_mem h

/-- The second application of `normalizeText` produces a fixed point. -/
theorem normalize_double_fixed (x : List Char) :
    normalizeText (normalizeText (normalizeText x)) =
      normalizeText (normalizeText x) := by
  have h2 := normalize_normalize x
  have hz : normalizeText (normalizeText (normalizeText x)) =
      trimList (collapseWs (normalizeText (normalizeText x))) :=
    normalizeText_of_canonical
      (fun a ha => (double_normalize_mem ha).1)
      (fun a ha => (double_normalize_mem ha).2)
      (trimList_normalizeText _)
  rw [hz, h2]
  -- the double-normalized text has single spaces only: collapsing is a no-op
  have hchain : List.Chain'
      (fun a b => ¬(isWsChar a = true ∧ isWsChar b = true))
      (trimList (collapseWs (normalizeText x))) :=
    chain_trimList (chain_collapseWs _)
  have hspace : ∀ a ∈ trimList (collapseWs (normalizeText x)),
      isWsChar a = true → a = ' ' := by
    intro a ha hws
    exact collapseWs_ws_space (mem_trimList ha) hws
  rw [collapseWs_eq_self hchain hspace, trimList_idem]

/-! ### Lemmas: the hash-invariance properties of normalization -/

theorem normalizeText_map_eq {x y : List Char}
    (h : x.map Char.toLower = y.map Char.toLower) :
    normalizeText x = normalizeText y := by
  rw [normalizeText, normalizeText, h]

theorem hashContent_map_eq {x y : List Char}
    (h : x.map Char.toLower = y.map Char.toLower) :
    hashContent x = hashContent y := by
  rw [hashContent, hashContent, normalizeText_map_eq h]

theorem normalizeText_pad {p q : List Char} (x : List Char)
    (hp : ∀ a ∈ p, isWsChar a = true) (hq : ∀ a ∈ q, isWsChar a = true) :
    normalizeText (p ++ x ++ q) = normalizeText x := by
  rw [normalizeText_eq_words, normalizeText_eq_words]
  have hmapp : ∀ a ∈ p.map Char.toLower, isWsChar a = true := by
    intro a ha
    obtain ⟨b, hb, rfl⟩ := List.mem_map.mp ha
    rw [toLower_ws_fix (hp b hb)]
    exact hp b hb
  have hmapq : ∀ a ∈ q.map Char.toLower, isWsChar a = true := by
    intro a ha
    obtain ⟨b, hb, rfl⟩ := List.mem_map.mp ha
    rw [toLower_ws_fix (hq b hb)]
    exact hq b hb
  have hwords : wordsWs ((p ++ x ++ q).map Char.toLower) =
      wordsWs (x.map Char.toLower) := by
    rw [List.map_append, List.map_append, List.append_assoc,
      wordsWs_wsLead hmapp]
    cases hqq : q.map Char.toLower with
    | nil => rw [List.append_nil]
    | cons u us =>
      rw [← hqq]
      have := wordsWs_append_sep (q.map Char.toLower)
        (by rw [hqq]; simp) hmapq (x.map Char.toLower) []
      rw [List.append_nil] at this
      rw [this, show wordsWs ([] : List Char) = [] from rfl, List.append_nil]
  rw [hwords]

theorem normalizeText_run {s t : List Char} (a b : List Char)
    (hs : s ≠ []) (hws : ∀ c ∈ s, isWsChar c = true)
    (ht : t ≠ []) (hwt : ∀ c ∈ t, isWsChar c = true) :
    normalizeText (a ++ s ++ b) = normalizeText (a ++ t ++ b) := by
  rw [normalizeText_eq_words, normalizeText_eq_words]
  have hmaps : ∀ c ∈ s.map Char.toLower, isWsChar c = true := by
    intro c hc
    obtain ⟨d, hd, rfl⟩ := List.mem_map.mp hc
    rw [toLower_ws_fix (hws d hd)]
    exact hws d hd
  have hmapt : ∀ c ∈ t.map Char.toLower, isWsChar c = true := by
    intro c hc
    obtain ⟨d, hd, rfl⟩ := List.mem_map.mp hc
    rw [toLower_ws_fix (hwt d hd)]
    exact hwt d hd
  have h1 : wordsWs ((a ++ s ++ b).map Char.toLower) =
      wordsWs (a.map Char.toLower) ++ wordsWs (b.map Char.toLower) := by
    rw [List.map_append, List.map_append]
    exact wordsWs_append_sep (s.map Char.toLower) (by simpa using hs) hmaps _ _
  have h2 : wordsWs ((a ++ t ++ b).map Char.toLower) =
      wordsWs (a.map Char.toLower) ++ wordsWs (b.map Char.toLower) := by
    rw [List.map_append, List.map_append]
    exact wordsWs_append_sep (t.map Char.toLower) (by simpa using ht) hmapt _ _
  rw [h1, h2]

theorem hashContent_pad {p q : List Char} (x : List Char)
    (hp : ∀ a ∈ p, isWsChar a = true) (hq : ∀ a ∈ q, isWsChar a = true) :
    hashContent (p ++ x ++ q) = hashContent x := by
  rw [hashContent, hashContent, normalizeText_pad x hp hq]

theorem hashContent_run {s t : List Char} (a b : List Char)
    (hs : s ≠ []) (hws : ∀ c ∈ s, isWsChar c = true)
    (ht : t ≠ []) (hwt : ∀ c ∈ t, isWsChar c = true) :
    hashContent (a ++ s ++ b) = hashContent (a ++ t ++ b) := by
  rw [hashContent, hashContent, normalizeText_run a b hs hws ht hwt]

/-! ### Lemmas: word counting at the engine entry -/

theorem wordCountJS_joinWords {ws : List (List Char)} (hne : ws ≠ [])
    (h : ∀ w ∈ ws, w ≠ [] ∧ ∀ a ∈ w, isWsChar a = false) :
    wordCountJS (joinWords ws) = ws.length := by
  have hwords : wordsWs (joinWords ws) = ws := wordsWs_joinWords h
  have htrim : wordsWs (trimList (joinWords ws)) = ws := by
    rw [wordsWs_trimList, hwords]
  have hnotnil : trimList (joinWords ws) ≠ [] := by
    intro hnil
    rw [hnil] at htrim
    exact hne (by rw [← htrim]; rfl)
  have hfalse : (trimList (joinWords ws)).isEmpty = false := by
    cases hemp : (trimList (joinWords ws)).isEmpty
    · rfl
    · exact absurd (List.isEmpty_iff.mp hemp) hnotnil
  show (if (trimList (joinWords ws)).isEmpty then 1
        else (wordsWs (trimList (joinWords ws))).length) = ws.length
  rw [hfalse, htrim]
  simp

/-! ### Lemmas: unrolling the retry loop -/

theorem singlePassFrom_zero (b : Nat → CallOutcome) (a : Nat) :
    singlePassFrom b 0 a = ⟨.terminal, 0, []⟩ := rfl

theorem singlePassFrom_succ (b : Nat → CallOutcome) (fuel a : Nat) :
    singlePassFrom b (fuel + 1) a =
      match b a with
      | .success => ⟨.ok, 1, []⟩
      | .schemaInvalid => ⟨.fatalSchema, 1, []⟩
      | .transient =>
        let rest := singlePassFrom b fuel (a + 1)
        ⟨rest.outcome, rest.calls + 1,
         if a < maxRetries - 1 then
           calculateBackoff a retryDelay :: rest.delays
         else rest.delays⟩ := rfl

theorem singlePassFrom_congr (b1 b2 : Nat → CallOutcome) :
    ∀ (fuel attempt : Nat),
      (∀ i, attempt ≤ i → i < attempt + fuel → b1 i = b2 i) →
      singlePassFrom b1 fuel attempt = singlePassFrom b2 fuel attempt := by
  intro fuel
  induction fuel with
  | zero => intro attempt _; rfl
  | succ n ih =>
    intro attempt h
    rw [singlePassFrom_succ, singlePassFrom_succ,
      h attempt (Nat.le_refl _) (by omega)]
    cases b2 attempt with
    | success => rfl
    | schemaInvalid => rfl
    | transient =>
      have := ih (attempt + 1) fun i h1 h2 => h i (by omega) (by omega)
      simp only [this]

/-! ### Claim theorems -/

/-- C1: if every Redis call throws, `checkRateLimit` and
`checkReadRateLimit` report exceeded for every identity and limit, and
`checkDailyBudget` reports exceeded for every budget, day and token count:
both guards fail closed. -/
theorem c1_guards_fail_closed (b : RedisBackend) (h : RedisDown b) :
    (∀ ip limit, checkRateLimit b ip limit = true) ∧
    (∀ ip limit, checkReadRateLimit b ip limit = true) ∧
    (∀ budget today tokens,
      (checkDailyBudget b budget today tokens).exceeded = true) := by
  obtain ⟨h1, h2, h3, h4, h5⟩ := h
  refine ⟨?_, ?_, ?_⟩
  · intro ip limit
    rw [checkRateLimit, atomicRateLimit, h1]
  · intro ip limit
    rw [checkReadRateLimit, atomicRateLimit, h1]
  · intro budget today tokens
    rw [checkDailyBudget]
    by_cases ht : tokens > 0
    · simp only [ht, if_true, h2, h5, Except.bind]
      rfl
    · simp only [ht, if_false, h2, h5, Except.bind]
      rfl

/-- C1 witness: the fail-closed behavior at a concrete down backend. -/
theorem c1_guards_fail_closed_witness :
    checkRateLimit downBackend "203.0.113.7" 10 = true ∧
    checkReadRateLimit downBackend "203.0.113.7" 30 = true ∧
    (checkDailyBudget downBackend 5000000 "2026-10-11" 0).exceeded = true ∧
    (checkDailyBudget downBackend 5000000 "2026-10-11" 4321).exceeded = true := by
  have h := c1_guards_fail_closed downBackend
    ⟨fun _ _ => rfl, fun _ _ => rfl, fun _ => rfl, fun _ _ => rfl, fun _ => rfl⟩
  exact ⟨h.1 _ _, h.2.1 _ _, h.2.2 _ _ _, h.2.2 _ _ _⟩

/-- C2 counterexample: `"a @ b"` and `"a  b"` differ only in the use of
the stripped punctuation character `@`, yet their digests differ: the
strip step runs after whitespace collapsing, so removing `@` leaves a
double space in one normalized form but not the other. -/
theorem c2_hash_invariance_counterexample :
    hashContent "a @ b".data ≠ hashContent "a  b".data := by decide

/-- C2 (amended): inputs differing only in letter case, in surrounding
whitespace, or in the length/content of internal nonempty whitespace runs
hash identically, and `hashContent " Hello  World "` equals
`hashContent "hello world"`; invariance under use of stripped punctuation
does not hold in general. -/
theorem c2_hash_invariance :
    (∀ x y : List Char, x.map Char.toLower = y.map Char.toLower →
      hashContent x = hashContent y) ∧
    (∀ p q x : List Char, (∀ a ∈ p, isWsChar a = true) →
      (∀ a ∈ q, isWsChar a = true) →
      hashContent (p ++ x ++ q) = hashContent x) ∧
    (∀ a b s t : List Char, s ≠ [] → (∀ c ∈ s, isWsChar c = true) →
      t ≠ [] → (∀ c ∈ t, isWsChar c = true) →
      hashContent (a ++ s ++ b) = hashContent (a ++ t ++ b)) ∧
    hashContent " Hello  World ".data = hashContent "hello world".data := by
  refine ⟨fun x y h => hashContent_map_eq h,
          fun p q x hp hq => hashContent_pad x hp hq,
          fun a b s t hs hws ht hwt => hashContent_run a b hs hws ht hwt, ?_⟩
  have hnorm : normalizeText " Hello  World ".data =
      normalizeText "hello world".data := by decide
  rw [hashContent, hashContent, hnorm]

/-- C2 witness: the invariance parts applied at concrete inputs. -/
theorem c2_hash_invariance_witness :
    hashContent "TOS".data = hashContent "tos".data ∧
    hashContent ("  ".data ++ "terms".data ++ " ".data) = hashContent "terms".data ∧
    hashContent ("a".data ++ "   ".data ++ "b".data) =
      hashContent ("a".data ++ " ".data ++ "b".data) := by
  refine ⟨c2_hash_invariance.1 "TOS".data "tos".data (by decide), ?_, ?_⟩
  · exact c2_hash_invariance.2.1 "  ".data " ".data "terms".data
      (by decide) (by decide)
  · exact c2_hash_invariance.2.2.1 "a".data "b".data "   ".data " ".data
      (by decide) (by decide) (by decide) (by decide)

/-- C3 counterexample: when every model call fails transiently, exactly
two backoff sleeps happen (1000 ms and 2000 ms); the claimed delay
sequence 1s, 2s, 4s never occurs because the third attempt is the last
and throws the terminal error without sleeping. -/
theorem c3_retry_counterexample :
    (analyzeSinglePassRun allTransient).delays = [1000, 2000] ∧
    (analyzeSinglePassRun allTransient).delays ≠ [1000, 2000, 4000] := by
  constructor
  · rfl
  · decide

/-- C3 (amended): when every model call fails transiently, exactly 3
model calls are made (2 retries after the first attempt), with backoff
sleeps of `calculateBackoff 0 1000 = 1000` ms and `calculateBackoff 1
1000 = 2000` ms between consecutive attempts, before the terminal
analysis error is surfaced; no 4-second sleep occurs. -/
theorem c3_retry_backoff (behavior : Nat → CallOutcome)
    (h : ∀ i, i < 3 → behavior i = .transient) :
    analyzeSinglePassRun behavior =
      ⟨.terminal, 3, [calculateBackoff 0 retryDelay,
                      calculateBackoff 1 retryDelay]⟩ ∧
    calculateBackoff 0 retryDelay = 1000 ∧
    calculateBackoff 1 retryDelay = 2000 ∧
    calculateBackoff 2 retryDelay = 4000 := by
  refine ⟨?_, rfl, rfl, rfl⟩
  have hcongr := singlePassFrom_congr behavior allTransient maxRetries 0
    fun i h0 h3 => by rw [h i (by simpa [maxRetries] using h3)]; rfl
  rw [analyzeSinglePassRun, hcongr]
  rfl

/-- C3 witness: the amended run at the concrete all-transient behavior. -/
theorem c3_retry_backoff_witness :
    analyzeSinglePassRun allTransient =
      ⟨.terminal, 3, [calculateBackoff 0 retryDelay,
                      calculateBackoff 1 retryDelay]⟩ :=
  (c3_retry_backoff allTransient fun _ _ => rfl).1

/-- C4: if the first model call yields output that parses as JSON but
fails schema validation, the run makes exactly one model call, sleeps no
backoff delay, and surfaces the fatal schema error immediately. -/
theorem c4_schema_failure_no_retry (behavior : Nat → CallOutcome)
    (h : behavior 0 = .schemaInvalid) :
    analyzeSinglePassRun behavior = ⟨.fatalSchema, 1, []⟩ := by
  rw [analyzeSinglePassRun, show maxRetries = 2 + 1 from rfl,
    singlePassFrom_succ, h]

/-- C4 witness: the schema-invalid behavior at a concrete input. -/
theorem c4_schema_failure_no_retry_witness :
    analyzeSinglePassRun schemaInvalidFirst = ⟨.fatalSchema, 1, []⟩ :=
  c4_schema_failure_no_retry schemaInvalidFirst rfl

/-- C5: for a document assembled from nonempty whitespace-free words
joined by single spaces, the engine entry counts exactly those words and
routes to CHUNKED precisely when the count exceeds 45000, otherwise to
SINGLE_PASS. -/
theorem c5_chunk_threshold (ws : List (List Char)) (hne : ws ≠ [])
    (h : ∀ w ∈ ws, w ≠ [] ∧ ∀ a ∈ w, isWsChar a = false) :
    wordCountJS (joinWords ws) = ws.length ∧
    analyzeWithClaudeRoute (joinWords ws) =
      (if 45000 < ws.length then .chunked else .singlePass) := by
  have hcount := wordCountJS_joinWords hne h
  refine ⟨hcount, ?_⟩
  rw [analyzeWithClaudeRoute]
  show (if wordCountJS (joinWords ws) > 45000 then EnginePath.chunked
        else EnginePath.singlePass) = _
  rw [hcount]

/-- C5 witness: a 45001-word document routes to CHUNKED and a 45000-word
document routes to SINGLE_PASS. -/
theorem c5_chunk_threshold_witness :
    analyzeWithClaudeRoute (joinWords (List.replicate 45001 ['a'])) =
      EnginePath.chunked ∧
    analyzeWithClaudeRoute (joinWords (List.replicate 45000 ['a'])) =
      EnginePath.singlePass := by
  have hw1 : ∀ w ∈ List.replicate 45001 (['a'] : List Char),
      w ≠ [] ∧ ∀ a ∈ w, isWsChar a = false := by
    intro w hw
    rw [List.eq_of_mem_replicate hw]
    exact ⟨by intro h; exact absurd (congrArg List.length h) (by norm_num),
           by decide⟩
  have hw2 : ∀ w ∈ List.replicate 45000 (['a'] : List Char),
      w ≠ [] ∧ ∀ a ∈ w, isWsChar a = false := by
    intro w hw
    rw [List.eq_of_mem_replicate hw]
    exact ⟨by intro h; exact absurd (congrArg List.length h) (by norm_num),
           by decide⟩
  have hne1 : List.replicate 45001 (['a'] : List Char) ≠ [] := by
    intro h
    have := congrArg List.length h
    rw [List.length_replicate] at this
    simp at this
  have hne2 : List.replicate 45000 (['a'] : List Char) ≠ [] := by
    intro h
    have := congrArg List.length h
    rw [List.length_replicate] at this
    simp at this
  have h1 := (c5_chunk_threshold _ hne1 hw1).2
  have h2 := (c5_chunk_threshold _ hne2 hw2).2
  rw [List.length_replicate] at h1 h2
  constructor
  · rw [h1]; norm_num
  · rw [h2]; norm_num

/-- C7 counterexample: `normalizeText` is not idempotent: on `"a @ b"`
one application yields `"a  b"` (the strip step runs after whitespace
collapsing and leaves a double space), and the second application
collapses it further. -/
theorem c7_idempotent_counterexample :
    normalizeText (normalizeText "a @ b".data) ≠
      normalizeText "a @ b".data := by decide

/-- C7 (amended): normalization is idempotent from the second application
on: for every input `x`, `normalizeText (normalizeText (normalizeText x))
= normalizeText (normalizeText x)`; idempotence of a single application
fails (see the counterexample). -/
theorem c7_normalize_double_idempotent (x : List Char) :
    normalizeText (normalizeText (normalizeText x)) =
      normalizeText (normalizeText x) :=
  normalize_double_fixed x

/-- The catch-block analytics write never touches the `analyses` table. -/
theorem recordErrorEvent_analyses (ctx : AnalyzeCtx) (db : Db) :
    (recordErrorEvent ctx db).analyses = db.analyses := by
  rw [recordErrorEvent]
  split <;> rfl

/-- C6: when the pipeline reaches the engine (rate limit passed, body and
text valid, budget available, no fresh record in the store) and the
engine reports a non-legal document, the endpoint answers
INVALID_DOCUMENT_TYPE carrying the detected type and confidence, and the
durable store is returned unchanged — no record or analytics event is
written. -/
theorem c6_invalid_document_not_persisted (ctx : AnalyzeCtx)
    (req : AnalyzeRequest) (db : Db) (result : AnalysisResult)
    (cached : Bool) (tokens : Option Nat)
    (hrl : checkRateLimit ctx.backend ctx.clientIP ctx.rateLimit = false)
    (hschema : analyzeRequestSchemaOk req = true)
    (hbudget : (checkDailyBudget ctx.backend ctx.dailyTokenBudget
      ctx.today 0).exceeded = false)
    (hvalid : validateTOSText req.text = none)
    (hfresh : ∀ e, db.analyses.find?
      (fun r => r.contentHash == hashContent req.text) = some e →
      e.expiresAt ≤ ctx.now)
    (heng : ctx.engineOutcome = .ok (result, cached, tokens))
    (hlegal : result.document_validation.is_legal_document = false) :
    postAnalyze ctx req db =
      (.invalidDocumentType result.document_validation.document_type
        result.document_validation.confidence, db) := by
  rw [postAnalyze, hrl, hschema, hbudget, hvalid]
  simp only [Bool.not_true, if_false, Bool.false_eq_true]
  cases hf : db.analyses.find? (fun r => r.contentHash == hashContent req.text) with
  | none =>
    dsimp only
    rw [postAnalyzeEngine, heng]
    simp only [hlegal, Bool.not_false, if_true]
  | some e =>
    have hexp := hfresh e hf
    dsimp only
    rw [if_neg (show ¬ ctx.now < e.expiresAt by omega)]
    rw [postAnalyzeEngine, heng]
    simp only [hlegal, Bool.not_false, if_true]

/-- C6 witness: a poem under an empty store is rejected with the detected
type and confidence and the store stays empty. -/
theorem c6_invalid_document_not_persisted_witness :
    postAnalyze c6Ctx sampleReq emptyDb =
      (.invalidDocumentType
        samplePoemResult.document_validation.document_type
        samplePoemResult.document_validation.confidence, emptyDb) :=
  c6_invalid_document_not_persisted c6Ctx sampleReq emptyDb samplePoemResult
    false (some 500) (by decide) (by decide) (by decide) (by decide)
    (by intro e he; simp [emptyDb, List.find?] at he) rfl rfl

/-- C8 counterexample: for an expired record (expiry 5, now 10) with a
cached share view present, the fetch endpoint returns the cached payload
with a 200-class success — not the EXPIRED signal — because the cache is
consulted before the expiry check. -/
theorem c8_expired_counterexample :
    c8Record.expiresAt < c8CtxHit.now ∧
    getAnalysisById c8CtxHit c8Uuid c8Db = (.success c8Payload true, c8Db) ∧
    (getAnalysisById c8CtxHit c8Uuid c8Db).1 ≠ .expired := by
  refine ⟨by decide, by decide, by decide⟩

/-- C8 (amended): on a share-cache miss, fetching an expired record (its
`expiresAt` strictly before now) returns the EXPIRED signal with the
store unchanged; on a cache hit the cached payload is served without any
expiry check. -/
theorem c8_expired_on_cache_miss (ctx : FetchCtx) (id : String) (db : Db)
    (a : AnalysisRecord)
    (huuid : isUuidFormat id = true)
    (hmiss : ctx.cachedShare = none)
    (hfind : db.analyses.find? (fun r => r.id == id) = some a)
    (hexp : a.expiresAt < ctx.now) :
    getAnalysisById ctx id db = (.expired, db) := by
  rw [getAnalysisById, huuid]
  simp only [Bool.not_true, Bool.false_eq_true, if_false, hmiss]
  rw [hfind]
  simp only [if_pos hexp]

/-- C8 witness: the amended behavior at the concrete expired record. -/
theorem c8_expired_on_cache_miss_witness :
    getAnalysisById c8CtxMiss c8Uuid c8Db = (.expired, c8Db) :=
  c8_expired_on_cache_miss c8CtxMiss c8Uuid c8Db c8Record (by decide) rfl
    (by decide) (by decide)

/-- C9 counterexample: in a scenario that succeeds up to the
analytics-recording step, a thrown `analysis_created` write makes the
endpoint answer ANALYSIS_ERROR (500) instead of the success response; the
identical scenario with a healthy analytics write does not produce that
error.  The write is awaited inside the main try block, so its failure is
not swallowed. -/
theorem c9_analytics_counterexample :
    (postAnalyze c9Ctx sampleReq emptyDb).1 = .analysisError ∧
    (postAnalyze c9CtxOk sampleReq emptyDb).1 ≠ .analysisError := by
  refine ⟨by decide, by decide⟩

/-- C9 (amended): analytics recording on the analyze success path is not
best-effort: when the pipeline reaches the persist step and the
`analysis_created` analytics write throws, the endpoint returns
ANALYSIS_ERROR even though the new record has already been persisted;
only the catch-block `error_occurred` write is swallowed. -/
theorem c9_analytics_failure_fails_request (ctx : AnalyzeCtx)
    (req : AnalyzeRequest) (db : Db) (result : AnalysisResult)
    (cached : Bool) (tokens : Option Nat)
    (hrl : checkRateLimit ctx.backend ctx.clientIP ctx.rateLimit = false)
    (hschema : analyzeRequestSchemaOk req = true)
    (hbudget : (checkDailyBudget ctx.backend ctx.dailyTokenBudget
      ctx.today 0).exceeded = false)
    (hvalid : validateTOSText req.text = none)
    (hfind : db.analyses.find?
      (fun r => r.contentHash == hashContent req.text) = none)
    (heng : ctx.engineOutcome = .ok (result, cached, tokens))
    (hlegal : result.document_validation.is_legal_document = true)
    (hfail : ctx.analyticsCreateFails = true) :
    (postAnalyze ctx req db).1 = .analysisError ∧
    (postAnalyze ctx req db).2.analyses = db.analyses ++
      [⟨ctx.newId, hashContent req.text, req.source_type, req.source_url,
        result, countWords req.text, countChars req.text, ctx.now,
        calculateExpiryDate ctx.now 30,
        some (ctx.sanitizeCompany (firstTruthy req.company_name
          result.detected_company.name "Unknown Company")),
        req.add_to_library, 0, ctx.hmacSha256 ctx.salt ctx.creatorToken⟩] := by
  rw [postAnalyze, hrl, hschema, hbudget, hvalid]
  simp only [Bool.not_true, if_false, Bool.false_eq_true, hfind]
  rw [postAnalyzeEngine, heng]
  simp only [hlegal, Bool.not_true, Bool.false_eq_true, if_false]
  rw [finishPersist, hfail, if_pos rfl]
  exact ⟨rfl, recordErrorEvent_analyses ctx _⟩

/-- C9 witness: the amended behavior at the concrete failing-analytics
scenario. -/
theorem c9_analytics_failure_fails_request_witness :
    (postAnalyze c9Ctx sampleReq emptyDb).1 = .analysisError ∧
    (postAnalyze c9Ctx sampleReq emptyDb).2.analyses = emptyDb.analyses ++
      [⟨c9Ctx.newId, hashContent sampleReq.text, sampleReq.source_type,
        sampleReq.source_url, sampleLegalResult, countWords sampleReq.text,
        countChars sampleReq.text, c9Ctx.now,
        calculateExpiryDate c9Ctx.now 30,
        some (c9Ctx.sanitizeCompany (firstTruthy sampleReq.company_name
          sampleLegalResult.detected_company.name "Unknown Company")),
        sampleReq.add_to_library, 0,
        c9Ctx.hmacSha256 c9Ctx.salt c9Ctx.creatorToken⟩] :=
  c9_analytics_failure_fails_request c9Ctx sampleReq emptyDb
    sampleLegalResult false (some 500) (by decide) (by decide) (by decide)
    (by decide) rfl rfl rfl rfl

/-- C10: on the re-analysis overwrite path (a record with the same
fingerprint exists and the cached-return guard did not fire), the update
rewrites exactly `analysisData`, `expiresAt`, `wordCount`, `charCount`,
`companyName` and `isPublic` — the record-update expression leaves
`creatorTokenHash`, `contentHash`, `createdAt`, `sourceType`, `sourceUrl`
and `popularityScore` untouched — while the response carries the freshly
generated creator token, whose salted digest therefore differs from the
stored `creatorTokenHash` whenever the fresh digest differs from the old
one. -/
theorem c10_overwrite_keeps_creator_hash (ctx : AnalyzeCtx)
    (req : AnalyzeRequest) (db : Db) (e : AnalysisRecord)
    (result : AnalysisResult) (cached : Bool) (tokens : Option Nat)
    (hrl : checkRateLimit ctx.backend ctx.clientIP ctx.rateLimit = false)
    (hschema : analyzeRequestSchemaOk req = true)
    (hbudget : (checkDailyBudget ctx.backend ctx.dailyTokenBudget
      ctx.today 0).exceeded = false)
    (hvalid : validateTOSText req.text = none)
    (hfind : db.analyses.find?
      (fun r => r.contentHash == hashContent req.text) = some e)
    (hexp : e.expiresAt ≤ ctx.now)
    (heng : ctx.engineOutcome = .ok (result, cached, tokens))
    (hlegal : result.document_validation.is_legal_document = true)
    (hok : ctx.analyticsCreateFails = false) :
    postAnalyze ctx req db =
      (.success ⟨e.id, result, cached, some ctx.creatorToken, e.createdAt,
        calculateExpiryDate ctx.now 30, req.add_to_library,
        some (ctx.sanitizeCompany (firstTruthy req.company_name
          result.detected_company.name "Unknown Company"))⟩,
       { db with
          analyses := db.analyses.map fun r =>
            if r.id == e.id then
              { e with
                analysisData := result,
                expiresAt := calculateExpiryDate ctx.now 30,
                wordCount := countWords req.text,
                charCount := countChars req.text,
                companyName := some (ctx.sanitizeCompany (firstTruthy
                  req.company_name result.detected_company.name
                  "Unknown Company")),
                isPublic := req.add_to_library }
            else r,
          events := db.events ++
            [⟨some e.id, "analysis_created", ctx.sessionHash⟩] }) ∧
    ({ e with
        analysisData := result,
        expiresAt := calculateExpiryDate ctx.now 30,
        wordCount := countWords req.text,
        charCount := countChars req.text,
        companyName := some (ctx.sanitizeCompany (firstTruthy
          req.company_name result.detected_company.name "Unknown Company")),
        isPublic := req.add_to_library } : AnalysisRecord).creatorTokenHash
      = e.creatorTokenHash ∧
    (ctx.hmacSha256 ctx.salt ctx.creatorToken ≠ e.creatorTokenHash →
      ctx.hmacSha256 ctx.salt ctx.creatorToken ≠
        ({ e with
            analysisData := result,
            expiresAt := calculateExpiryDate ctx.now 30,
            wordCount := countWords req.text,
            charCount := countChars req.text,
            companyName := some (ctx.sanitizeCompany (firstTruthy
              req.company_name result.detected_company.name
              "Unknown Company")),
            isPublic := req.add_to_library } : AnalysisRecord).creatorTokenHash) := by
  refine ⟨?_, rfl, fun h => h⟩
  rw [postAnalyze, hrl, hschema, hbudget, hvalid]
  simp only [Bool.not_true, if_false, Bool.false_eq_true, hfind]
  rw [if_neg (show ¬ ctx.now < e.expiresAt by omega)]
  rw [postAnalyzeEngine, heng]
  simp only [hlegal, Bool.not_true, Bool.false_eq_true, if_false]
  rw [finishPersist, hok, if_neg (by simp)]

/-- C10 witness: the overwrite at the concrete expired record; the fresh
salted digest "salt:tok" differs from the stored "old-hash". -/
theorem c10_overwrite_keeps_creator_hash_witness :
    (postAnalyze c10Ctx sampleReq c10Db =
      (.success ⟨c10Existing.id, sampleLegalResult, false,
        some c10Ctx.creatorToken, c10Existing.createdAt,
        calculateExpiryDate c10Ctx.now 30, sampleReq.add_to_library,
        some (c10Ctx.sanitizeCompany (firstTruthy sampleReq.company_name
          sampleLegalResult.detected_company.name "Unknown Company"))⟩,
       { c10Db with
          analyses := c10Db.analyses.map fun r =>
            if r.id == c10Existing.id then
              { c10Existing with
                analysisData := sampleLegalResult,
                expiresAt := calculateExpiryDate c10Ctx.now 30,
                wordCount := countWords sampleReq.text,
                charCount := countChars sampleReq.text,
                companyName := some (c10Ctx.sanitizeCompany (firstTruthy
                  sampleReq.company_name
                  sampleLegalResult.detected_company.name
                  "Unknown Company")),
                isPublic := sampleReq.add_to_library }
            else r,
          events := c10Db.events ++
            [⟨some c10Existing.id, "analysis_created", c10Ctx.sessionHash⟩] }) ∧
      ({ c10Existing with
          analysisData := sampleLegalResult,
          expiresAt := calculateExpiryDate c10Ctx.now 30,
          wordCount := countWords sampleReq.text,
          charCount := countChars sampleReq.text,
          companyName := some (c10Ctx.sanitizeCompany (firstTruthy
            sampleReq.company_name sampleLegalResult.detected_company.name
            "Unknown Company")),
          isPublic := sampleReq.add_to_library } : AnalysisRecord).creatorTokenHash
        = c10Existing.creatorTokenHash) ∧
    c10Ctx.hmacSha256 c10Ctx.salt c10Ctx.creatorToken ≠
      c10Existing.creatorTokenHash := by
  have h := c10_overwrite_keeps_creator_hash c10Ctx sampleReq c10Db
    c10Existing sampleLegalResult false (some 500) (by decide) (by decide)
    (by decide) (by decide) (by decide) (by decide) rfl rfl rfl
  exact ⟨⟨h.1, h.2.1⟩, by decide⟩

end TosAnalyzer
